import Mathlib

/-!
# Verification of the rustybait search engine (`src/main.rs`)

This file shallowly embeds the code of `src/main.rs` (move-ordering
comparator, depth-specialized negamax routines, the general alpha-beta
search with cooperative cancellation, root search and iterative-deepening
driver, and the `position fen` handling of the UCI front end).

The repository modules `chess_game`, `piece`, `position`, `move_struct`,
`gamestate` and `scores` are not present under `src/`; the data they
define (pieces, moves, the `ChessGame` object with `get_moves`, `push`,
`pop`, `len`, `score`, check detection, and the FEN constructor) is
modelled from the specification, as documented on each such definition.
Everything else is translated directly from `src/main.rs`.

Modelling conventions:
* `Score` is a signed integer (`Int`); `Score::MIN`/`Score::MAX` are the
  `i64` sentinels.  All values occurring in the claims stay far inside
  the `i64` range, so `Int` arithmetic agrees with the Rust arithmetic.
* A position reachable by the search is a finitely branching game tree:
  each node carries the static evaluation of the position, whether the
  side to move's king is attacked, and the legal moves together with the
  position each one leads to.  `push` descends into a child and records
  an undo snapshot; `pop` consumes the snapshot, exactly as the Rust
  make/unmake discipline does.
* The shared `AtomicBool` cancellation flag is modelled as a schedule
  `Nat → Bool` giving the value observed by the n-th load, together with
  a load counter threaded through the search (the timer thread writes
  the flag once, so realistic schedules are monotone).
* The unbounded recursions of the source (a forced line recurses at the
  same depth; the deepening driver loops forever) are made total with an
  explicit fuel parameter; running out of fuel returns a neutral
  `Ok`-result with the state unchanged.  Theorems relate consecutive
  fuel values, so no claim depends on the fuel bottom.
-/

/-- The engine's score type (`type Score = i64` in the absent `scores`
module).  Modelled from the spec: a signed integer evaluation with
reserved `MIN`/`MAX` sentinels. -/
abbrev Score := Int

/-- `Score::MIN` for the 64-bit signed representation. -/
def Score.MIN : Int := -(2 ^ 63)

/-- `Score::MAX` for the 64-bit signed representation. -/
def Score.MAX : Int := 2 ^ 63 - 1

/-- Modelled from the spec: the six chess piece kinds.  The declaration
order fixes the derived total order used by the move-ordering
comparator; the spec requires that the comparator prefer more valuable
captured pieces and cheaper attacking pieces (§4.2), which forces the
order to rank more valuable types first. -/
inductive PieceType where
  | king
  | queen
  | rook
  | bishop
  | knight
  | pawn
deriving DecidableEq

/-- Discriminant of a piece type in the declaration order (used for the
`Ord`-style comparisons of the absent `piece` module). -/
def PieceType.val : PieceType → Nat
  | .king => 0
  | .queen => 1
  | .rook => 2
  | .bishop => 3
  | .knight => 4
  | .pawn => 5

/-- Conventional material value of a piece type, used only to state what
"cheaper attacker" means in the claims. -/
def PieceType.value : PieceType → Nat
  | .pawn => 1
  | .knight => 3
  | .bishop => 3
  | .rook => 5
  | .queen => 9
  | .king => 1000

/-- `a.cmp(&b)` on piece types. -/
def PieceType.cmp (a b : PieceType) : Ordering := compare a.val b.val

/-- Modelled from the spec: a piece has a type and an owning side
(`1` for White, `-1` for Black, matching the `current_player as Score`
cast in `src/main.rs`). -/
structure Piece where
  piece_type : PieceType
  owner : Int
deriving DecidableEq

/-- Modelled from the spec: a board coordinate. -/
structure Position where
  file : Nat
  rank : Nat
deriving DecidableEq

/-- Modelled from the spec: a move is either a normal move (possibly
carrying the captured piece) or a promotion carrying the promoted-to
piece type; castling and en passant are represented as normal moves. -/
inductive Move where
  | Normal (piece : Piece) (start : Position) (finish : Position)
      (captured_piece : Option Piece)
  | Promotion (piece : Piece) (start : Position) (finish : Position)
      (promoted : PieceType)
deriving DecidableEq

/-- Destination square of a move. -/
def Move.finish : Move → Position
  | .Normal _ _ e _ => e
  | .Promotion _ _ e _ => e

/-- `fn simple_sort(a: &Move, b: &Move) -> Ordering` from `src/main.rs`
(lines 27–58), the default move-ordering comparator.  Following the spec
(§3), pieces compare by type only, so the Rust `cap_piece_a !=
cap_piece_b` test is the type-inequality of the captured pieces. -/
def simple_sort (a b : Move) : Ordering :=
  match a with
  | .Normal piece_a _ _ capture_a =>
    match b with
    | .Normal piece_b _ _ capture_b =>
      match capture_a with
      | some cap_piece_a =>
        match capture_b with
        | some cap_piece_b =>
          if cap_piece_a.piece_type ≠ cap_piece_b.piece_type then
            cap_piece_a.piece_type.cmp cap_piece_b.piece_type
          else
            piece_b.piece_type.cmp piece_a.piece_type
        | none => Ordering.lt
      | none =>
        match capture_b with
        | some _ => Ordering.gt
        | none => piece_a.piece_type.cmp piece_b.piece_type
    | .Promotion _ _ _ _ => Ordering.gt
  | .Promotion _ _ _ _ => Ordering.lt

/-- Modelled from the spec: the game as seen by the search.  A node
carries the incremental static evaluation of the position (from the
fixed White-positive convention), whether the side to move's king is
attacked, and the legal moves paired with the position each leads to.
This stands in for the board, move generation and check detection of
the absent `chess_game` module. -/
inductive GameTree where
  | node (sc : Int) (targeted : Bool) (children : List (Move × GameTree))

/-- Static evaluation stored at the current position. -/
def GameTree.sc : GameTree → Int
  | .node s _ _ => s

/-- Whether the side to move's king is attacked at this position. -/
def GameTree.targeted : GameTree → Bool
  | .node _ t _ => t

/-- Legal moves of the current position, each with its successor. -/
def GameTree.children : GameTree → List (Move × GameTree)
  | .node _ _ c => c

/-- Modelled from the spec: the `ChessGame` object of the absent
`chess_game` module, restricted to the data the search observes — the
current position (as a game tree), the side to move (`±1`), the ply
count before the search started, the destination square of the last
move (the `GameState` "last destination" used for en passant), and the
undo stack of `(move, snapshot)` pairs written by `push` and consumed
by `pop`. -/
structure ChessGame where
  tree : GameTree
  current_player : Int
  baseLen : Nat
  lastDest : Option Position
  hist : List (Move × GameTree × Option Position)

/-- `game.score`: the incrementally maintained static evaluation. -/
def ChessGame.score (g : ChessGame) : Int := g.tree.sc

/-- `game.len()`: the ply count (plies before the search plus the
length of the undo stack). -/
def ChessGame.len (g : ChessGame) : Nat := g.baseLen + g.hist.length

/-- Modelled from the spec: `game.get_moves(&mut moves, b)` produces
every legal move of the current position; the boolean only cheapens
generation and does not change the produced set for the positions the
search visits, so the model returns the node's move list for either
flag value.  Each move is paired with the position it leads to, since
the board logic producing that position lives in the absent module. -/
def ChessGame.get_moves (g : ChessGame) (_captures_only : Bool) :
    List (Move × GameTree) := g.tree.children

/-- Modelled from the spec:
`game.is_targeted(game.get_king_position(player), player)` — whether
the king of the side to move is attacked in the current position. -/
def ChessGame.is_king_targeted (g : ChessGame) : Bool := g.tree.targeted

/-- `game.push(_move)`: apply one ply — descend into the move's
successor position, flip the side to move, record the last destination,
and push the undo snapshot. -/
def ChessGame.push (g : ChessGame) (c : Move × GameTree) : ChessGame :=
  { tree := c.2
    current_player := -g.current_player
    baseLen := g.baseLen
    lastDest := some c.1.finish
    hist := (c.1, g.tree, g.lastDest) :: g.hist }

/-- `game.pop(_move)`: undo one ply using the top snapshot. -/
def ChessGame.pop (g : ChessGame) (_m : Move) : ChessGame :=
  match g.hist with
  | [] => g
  | (_, t, ld) :: rest =>
    { tree := t
      current_player := -g.current_player
      baseLen := g.baseLen
      lastDest := ld
      hist := rest }

/-- A `pop` exactly undoes the matching `push` (§3 invariant 4). -/
theorem ChessGame.pop_push (g : ChessGame) (c : Move × GameTree) (m : Move) :
    (g.push c).pop m = g := by
  simp [ChessGame.push, ChessGame.pop]

/-- Popping removes at most one ply from the history. -/
theorem ChessGame.len_pop_ge (g : ChessGame) (m : Move) :
    g.len ≤ (g.pop m).len + 1 := by
  unfold ChessGame.pop
  match h : g.hist with
  | [] => simp
  | (a, t, ld) :: rest => simp [ChessGame.len, h]; omega

/-- Pushing adds exactly one ply to the history. -/
theorem ChessGame.len_push (g : ChessGame) (c : Move × GameTree) :
    (g.push c).len = g.len + 1 := by
  simp [ChessGame.push, ChessGame.len, Nat.add_assoc, Nat.add_comm 1]

/-- The move ordering used below the expensive-ordering threshold:
`moves.sort_unstable_by(simple_sort)`.  `sort_unstable_by` leaves the
relative order of comparator-equal elements unspecified; the model
fixes it as the stable insertion sort by the same comparator.  No
theorem in this file depends on the fixed order of comparator-equal
elements — only on the comparator itself. -/
def sortSimple (l : List (Move × GameTree)) : List (Move × GameTree) :=
  List.insertionSort (fun a b => simple_sort a.1 b.1 ≠ Ordering.gt) l

/-- `fn get_best_move_score_depth_1` from `src/main.rs` (lines 60–95):
the move loop.  `push_depth_1`/`pop_depth_1` are modelled by
`push`/`pop` (the spec states the shallow variants are observationally
identical for the one ply they are used for); the score read after
`push_depth_1` is `-game.score * (game.current_player as Score)`. -/
def depth_1_loop (g : ChessGame) (beta : Int) :
    List (Move × GameTree) → Int → Int
  | [], alpha => alpha
  | c :: rest, alpha =>
    let gp := g.push c
    let score := -gp.score * gp.current_player
    let alpha' := max alpha score
    if beta ≤ alpha' then alpha' else depth_1_loop g beta rest alpha'

/-- `fn get_best_move_score_depth_1` from `src/main.rs` (lines 60–95).
The recursion of the forced-line case is made total by fuel. -/
def get_best_move_score_depth_1 : Nat → ChessGame → Int → Int → Int
  | 0, _, _, _ => 0
  | fuel + 1, game, alpha, beta =>
    match game.get_moves false with
    | [] =>
      if !game.is_king_targeted then 0
      else Score.MIN + 100 + (game.len : Int)
    | [c] =>
      -(get_best_move_score_depth_1 fuel (game.push c) (-beta) (-alpha))
    | moves => depth_1_loop game beta moves alpha

/-- The move loop of `fn get_best_move_score_depth_2` (`src/main.rs`
lines 121–130): push, score by the depth-1 routine with the negated
window, pop, raise alpha, and cut once `alpha >= beta`. -/
def depth_2_loop (fuel : Nat) (g : ChessGame) (beta : Int) :
    List (Move × GameTree) → Int → Int
  | [], alpha => alpha
  | c :: rest, alpha =>
    let score :=
      -(get_best_move_score_depth_1 fuel (g.push c) (-beta) (-alpha))
    let alpha' := max alpha score
    if beta ≤ alpha' then alpha' else depth_2_loop fuel g beta rest alpha'

/-- `fn get_best_move_score_depth_2` from `src/main.rs` (lines 96–133). -/
def get_best_move_score_depth_2 : Nat → ChessGame → Int → Int → Int
  | 0, _, _, _ => 0
  | fuel + 1, game, alpha, beta =>
    match game.get_moves true with
    | [] =>
      if !game.is_king_targeted then 0
      else Score.MIN + 100 + (game.len : Int)
    | [c] =>
      -(get_best_move_score_depth_2 fuel (game.push c) (-beta) (-alpha))
    | moves => depth_2_loop fuel game beta (sortSimple moves) alpha

/-- The Rust `Ord` on `Result<Score, ()>` (`Ok` before `Err`, `Ok`
payloads by `≤`), as a boolean relation; this is the order
`sort_by_cached_key` sorts the reduced-depth keys by. -/
def resultLE : Except Unit Int → Except Unit Int → Bool
  | .ok a, .ok b => a ≤ b
  | .ok _, .error _ => true
  | .error _, .ok _ => false
  | .error _, .error _ => true

/-- The key-sorting pass of `moves.sort_by_cached_key(...)`: a stable
sort of the (move, key) pairs by their keys. -/
def sortByKeys (l : List ((Move × GameTree) × Except Unit Int)) :
    List ((Move × GameTree) × Except Unit Int) :=
  List.insertionSort (fun a b => resultLE a.2 b.2 = true) l

/-- The key-extraction pass of `moves.sort_by_cached_key(...)`
(`src/main.rs` lines 178–183): in input order, push each move, compute
its key by calling the search (`F` is the search at the reduced depth
with the fixed window), pop, and record the key.  The mutated game and
the load counter are threaded through. -/
def sortScores (F : ChessGame → Nat → Except Unit Int × ChessGame × Nat) :
    List (Move × GameTree) → ChessGame → Nat →
    List ((Move × GameTree) × Except Unit Int) × ChessGame × Nat
  | [], g, n => ([], g, n)
  | c :: rest, g, n =>
    let r := F (g.push c) n
    let g2 := r.2.1.pop c.1
    let out := sortScores F rest g2 r.2.2
    ((c, r.1) :: out.1, out.2)

/-- The main move loop of `fn get_best_move_score` (`src/main.rs` lines
188–198): push, recurse (`F` is the search one ply shallower at the
negated window around the current alpha), `?`-propagate an abort
without popping, otherwise pop, raise alpha and cut at `alpha >= beta`. -/
def searchLoop (F : ChessGame → Nat → Int → Except Unit Int × ChessGame × Nat)
    (beta : Int) :
    List (Move × GameTree) → ChessGame → Nat → Int →
    Except Unit Int × ChessGame × Nat
  | [], g, n, alpha => (.ok alpha, g, n)
  | c :: rest, g, n, alpha =>
    match F (g.push c) n alpha with
    | (.error e, g1, n1) => (.error e, g1, n1)
    | (.ok s, g1, n1) =>
      let g2 := g1.pop c.1
      let alpha' := max alpha (-s)
      if beta ≤ alpha' then (.ok alpha', g2, n1)
      else searchLoop F beta rest g2 n1 alpha'

/-- `fn get_best_move_score` from `src/main.rs` (lines 135–201).
`sched` gives the value of the shared cancellation flag at each load
and `n` is the load counter; the result carries the final state of the
`&mut ChessGame` and the counter alongside the `Result<Score, ()>`. -/
def get_best_move_score (sched : Nat → Bool) :
    Nat → ChessGame → Nat → Nat → Int → Int →
    Except Unit Int × ChessGame × Nat
  | 0, game, n, _, _, _ => (.ok 0, game, n)
  | fuel + 1, game, n, depth, alpha, beta =>
    if sched n then (.error (), game, n + 1)
    else
      let n1 := n + 1
      if depth = 2 then
        (.ok (get_best_move_score_depth_2 fuel game alpha beta), game, n1)
      else if depth = 1 then
        (.ok (get_best_move_score_depth_1 fuel game alpha beta), game, n1)
      else if depth = 0 then
        (.ok (game.score * game.current_player), game, n1)
      else
        match game.get_moves true with
        | [] =>
          if !game.is_king_targeted then (.ok 0, game, n1)
          else (.ok (Score.MIN + 100 + (game.len : Int)), game, n1)
        | [c] =>
          match get_best_move_score sched fuel (game.push c) n1 depth
              (-beta) (-alpha) with
          | (.error e, g1, m) => (.error e, g1, m)
          | (.ok s, g1, m) => (.ok (-s), g1.pop c.1, m)
        | moves =>
          let sg :=
            if 5 ≤ depth then
              let ks := sortScores
                (fun gp nn => get_best_move_score sched fuel gp nn
                  (depth - 5) (-beta) (-alpha)) moves game n1
              ((sortByKeys ks.1).map (fun x => x.1), ks.2)
            else (sortSimple moves, game, n1)
          searchLoop
            (fun gp nn a => get_best_move_score sched fuel gp nn
              (depth - 1) (-beta) (-a)) beta sg.1 sg.2.1 sg.2.2 alpha

/-- The root move loop of `fn get_best_move` (`src/main.rs` lines
219–234): for each root move push, search one ply shallower with the
window `(Score::MIN + 1, -best_score)` (`F` takes the current best
score), `?`-propagate an abort without popping, otherwise pop and keep
the move if it strictly improves the best score. -/
def rootLoop (F : ChessGame → Nat → Int → Except Unit Int × ChessGame × Nat) :
    List (Move × GameTree) → ChessGame → Nat → Option Move → Int →
    Except Unit (Option Move × Int × Bool) × ChessGame × Nat
  | [], g, n, best_move, best_score => (.ok (best_move, best_score, false), g, n)
  | c :: rest, g, n, best_move, best_score =>
    match F (g.push c) n best_score with
    | (.error e, g1, n1) => (.error e, g1, n1)
    | (.ok s, g1, n1) =>
      let g2 := g1.pop c.1
      if best_score < -s then rootLoop F rest g2 n1 (some c.1) (-s)
      else rootLoop F rest g2 n1 best_move best_score

/-- `fn get_best_move` from `src/main.rs` (lines 203–237).  The game is
taken by value (the driver hands it a fresh clone); the returned triple
is `(best move, score, forced-move flag)`. -/
def get_best_move (sched : Nat → Bool) (fuel : Nat) (game : ChessGame)
    (n : Nat) (depth : Nat) :
    Except Unit (Option Move × Int × Bool) × ChessGame × Nat :=
  match game.get_moves true with
  | [c] => (.ok (some c.1, 0, true), game, n)
  | moves =>
    rootLoop
      (fun gp nn bs => get_best_move_score sched fuel gp nn (depth - 1)
        (Score.MIN + 1) (-bs)) moves game n none (-Score.MAX)

/-- The iterative-deepening loop of `fn get_best_move_in_time`
(`src/main.rs` lines 253–274): at each depth hand `get_best_move` the
same original game (the source clones it afresh per depth and discards
the clone), stop and return the best move found so far on an abort, and
stop after a completed depth on a forced move or a forced-mate score.
The source's `for depth in 5..` loop is bounded here by iteration fuel. -/
def deepenLoop (sched : Nat → Bool) (sfuel : Nat) (game : ChessGame) :
    Nat → Nat → Nat → Option Int → Option Move → Option Move
  | 0, _, _, _, found_move => found_move
  | itf + 1, depth, n, last_score, found_move =>
    match get_best_move sched sfuel game n depth with
    | (.error _, _, _) => found_move
    | (.ok (best_move, best_score, is_only_move), _, n1) =>
      let found_move := best_move
      let _average_score :=
        match last_score with
        | some score => (score + best_score) / 2
        | none => best_score
      if is_only_move || decide (Score.MAX - 1000 < best_score) then found_move
      else deepenLoop sched sfuel game itf (depth + 1) n1 (some best_score)
        found_move

/-- `fn get_best_move_in_time` from `src/main.rs` (lines 239–277),
without the timer thread: the flag schedule stands in for the single
store the timer performs.  Deepening starts at depth 5. -/
def get_best_move_in_time (sched : Nat → Bool) (sfuel : Nat)
    (game : ChessGame) (itf : Nat) : Option Move :=
  deepenLoop sched sfuel game itf 5 0 none none

/-- A schedule produced by the single-writer timer thread: once the
flag is observed set, every later load observes it set. -/
def monoSched (sched : Nat → Bool) : Prop :=
  ∀ k, sched k = true → sched (k + 1) = true

/-- Splitting a character list at a separator (the whitespace/`/`
tokenisation the FEN constructor performs). -/
def splitOnChar (c : Char) : List Char → List (List Char)
  | [] => [[]]
  | x :: xs =>
    let r := splitOnChar c xs
    if x = c then [] :: r
    else
      match r with
      | [] => [[x]]
      | y :: ys => (x :: y) :: ys

/-- Modelled from the spec: `ChessGame::new` of the absent `chess_game`
module parses a FEN-like position description; a malformed string
yields a distinguished error and no game is produced.  The model
validates the field structure the spec describes (a board field of
eight `/`-separated ranks and a side-to-move field) and, beyond the
spec's detail, returns a fixed game on success. -/
def ChessGame.new (s : String) : Except String ChessGame :=
  match (splitOnChar ' ' s.toList).filter (fun t => t ≠ []) with
  | board :: side :: _ =>
    if (splitOnChar '/' board).length = 8 ∧ (side = ['w'] ∨ side = ['b']) then
      .ok { tree := .node 0 false []
            current_player := if side = ['w'] then 1 else -1
            baseLen := 0
            lastDest := none
            hist := [] }
    else .error "invalid position description"
  | _ => .error "invalid position description"

/-- The `"fen"` arm of the `position` command in `fn uci_talk`
(`src/main.rs` lines 330–339): replace the current game only if the
constructor succeeds, keep it untouched otherwise. -/
def handleFen (game : ChessGame) (s : String) : ChessGame :=
  match ChessGame.new s with
  | .ok fen_game => fen_game
  | .error _ => game

/-! ## Concrete sample positions used by the witnesses -/

/-- A quiet leaf position. -/
def tLeaf : GameTree := .node 4 false []

/-- A sample quiet pawn move. -/
def mv1 : Move := .Normal ⟨.pawn, 1⟩ ⟨0, 1⟩ ⟨0, 2⟩ none

/-- A second sample quiet pawn move. -/
def mv2 : Move := .Normal ⟨.pawn, 1⟩ ⟨1, 1⟩ ⟨1, 2⟩ none

/-- A position with two legal moves. -/
def gTwo : ChessGame :=
  ⟨.node 0 false [(mv1, tLeaf), (mv2, .node (-2) false [])], 1, 0, none, []⟩

/-- A checkmated position at ply count 6. -/
def gMate6 : ChessGame := ⟨.node 0 true [], 1, 6, none, []⟩

/-- A checkmated position at ply count 8. -/
def gMate8 : ChessGame := ⟨.node 0 true [], 1, 8, none, []⟩

/-- A stalemated position at ply count 4. -/
def gStale : ChessGame := ⟨.node 0 false [], 1, 4, none, []⟩

/-- A position whose only legal move is `mv1`. -/
def gSing : ChessGame := ⟨.node 1 false [(mv1, tLeaf)], 1, 2, none, []⟩

/-- A terminal (checkmated) position used at the root. -/
def gEmpty3 : ChessGame := ⟨.node 2 true [], -1, 3, none, []⟩

/-! ## C1: terminal-leaf scoring -/

/-- C1.  At a search node with no legal moves, each of
`get_best_move_score_depth_1`, `get_best_move_score_depth_2` and
`get_best_move_score` returns `0` when the side to move's king is not
targeted and `Score::MIN + 100 + ply_count` when it is, never both (the
two outcomes are selected by the exclusive check-test, and for any
ply count reachable in a game the two values differ); of two checkmate
leaves the one with the larger ply count receives the strictly larger
score. -/
theorem terminal_leaf_scores (sched : Nat → Bool) (fuel n depth : Nat)
    (g : ChessGame) (alpha beta : Int) (hd : 3 ≤ depth)
    (hs : sched n = false) :
    (g.get_moves false = [] →
      get_best_move_score_depth_1 (fuel + 1) g alpha beta =
        if g.is_king_targeted then Score.MIN + 100 + (g.len : Int) else 0)
    ∧ (g.get_moves true = [] →
      get_best_move_score_depth_2 (fuel + 1) g alpha beta =
        if g.is_king_targeted then Score.MIN + 100 + (g.len : Int) else 0)
    ∧ (g.get_moves true = [] →
      get_best_move_score sched (fuel + 1) g n depth alpha beta =
        (.ok (if g.is_king_targeted then Score.MIN + 100 + (g.len : Int)
          else 0), g, n + 1))
    ∧ ((g.len : Int) < 2 ^ 62 → Score.MIN + 100 + (g.len : Int) ≠ 0)
    ∧ (∀ g' : ChessGame, g.len < g'.len → g.is_king_targeted = true →
        g'.is_king_targeted = true → g.get_moves false = [] →
        g'.get_moves false = [] →
        get_best_move_score_depth_1 (fuel + 1) g alpha beta <
          get_best_move_score_depth_1 (fuel + 1) g' alpha beta) := by
  have h2 : depth ≠ 2 := by omega
  have h1 : depth ≠ 1 := by omega
  have h0 : depth ≠ 0 := by omega
  refine ⟨?_, ?_, ?_, ?_, ?_⟩
  · intro h
    cases hT : g.is_king_targeted <;>
      simp [get_best_move_score_depth_1, h, hT]
  · intro h
    cases hT : g.is_king_targeted <;>
      simp [get_best_move_score_depth_2, h, hT]
  · intro h
    cases hT : g.is_king_targeted <;>
      simp [get_best_move_score, hs, h2, h1, h0, h, hT]
  · intro hlt
    have : (0 : Int) < 2 ^ 63 - 100 - 2 ^ 62 := by norm_num
    simp only [Score.MIN]
    omega
  · intro g' hlen hT hT' hm hm'
    simp [get_best_move_score_depth_1, hm, hm', hT, hT']
    omega

/-- Witness for C1 at concrete checkmated and stalemated positions. -/
theorem terminal_leaf_scores_witness :
    get_best_move_score_depth_1 1 gMate6 0 0 =
      (if gMate6.is_king_targeted then
        Score.MIN + 100 + (gMate6.len : Int) else 0)
    ∧ get_best_move_score_depth_2 1 gStale 0 0 =
      (if gStale.is_king_targeted then
        Score.MIN + 100 + (gStale.len : Int) else 0)
    ∧ get_best_move_score (fun _ => false) 1 gMate6 0 3 0 0 =
      (.ok (if gMate6.is_king_targeted then
        Score.MIN + 100 + (gMate6.len : Int) else 0), gMate6, 1)
    ∧ Score.MIN + 100 + (gMate6.len : Int) ≠ 0
    ∧ get_best_move_score_depth_1 1 gMate6 0 0 <
        get_best_move_score_depth_1 1 gMate8 0 0 := by
  have h6 := terminal_leaf_scores (fun _ => false) 0 0 3 gMate6 0 0
    (by omega) rfl
  have hS := terminal_leaf_scores (fun _ => false) 0 0 3 gStale 0 0
    (by omega) rfl
  exact ⟨h6.1 rfl, hS.2.1 rfl, h6.2.2.1 rfl, h6.2.2.2.1 (by decide),
    h6.2.2.2.2 gMate8 (by decide) rfl rfl rfl rfl⟩

/-! ## C4: forced lines do not consume depth -/

/-- C4.  Whenever a position reached during search has exactly one
legal move, each routine pushes that move, recurses **at the same
depth parameter**, pops it and returns the negated result (in the
general routine the pop is skipped when the recursion aborts, matching
the `?` operator). -/
theorem singular_move_keeps_depth (sched : Nat → Bool) (fuel n depth : Nat)
    (g : ChessGame) (c : Move × GameTree) (alpha beta : Int)
    (hd : 3 ≤ depth) (hs : sched n = false) :
    (g.get_moves false = [c] →
      get_best_move_score_depth_1 (fuel + 1) g alpha beta =
        -(get_best_move_score_depth_1 fuel (g.push c) (-beta) (-alpha)))
    ∧ (g.get_moves true = [c] →
      get_best_move_score_depth_2 (fuel + 1) g alpha beta =
        -(get_best_move_score_depth_2 fuel (g.push c) (-beta) (-alpha)))
    ∧ (g.get_moves true = [c] →
      get_best_move_score sched (fuel + 1) g n depth alpha beta =
        match get_best_move_score sched fuel (g.push c) (n + 1) depth
            (-beta) (-alpha) with
        | (.error e, g1, m) => (.error e, g1, m)
        | (.ok s, g1, m) => (.ok (-s), g1.pop c.1, m)) := by
  have h2 : depth ≠ 2 := by omega
  have h1 : depth ≠ 1 := by omega
  have h0 : depth ≠ 0 := by omega
  refine ⟨?_, ?_, ?_⟩
  · intro h; simp [get_best_move_score_depth_1, h]
  · intro h; simp [get_best_move_score_depth_2, h]
  · intro h; simp [get_best_move_score, hs, h2, h1, h0, h]

/-- Witness for C4 at a concrete forced position. -/
theorem singular_move_keeps_depth_witness :
    get_best_move_score_depth_1 2 gSing 0 10 =
      -(get_best_move_score_depth_1 1 (gSing.push (mv1, tLeaf)) (-10) (-0))
    ∧ get_best_move_score (fun _ => false) 2 gSing 0 4 0 10 =
      match get_best_move_score (fun _ => false) 1 (gSing.push (mv1, tLeaf))
          1 4 (-10) (-0) with
      | (.error e, g1, m) => (.error e, g1, m)
      | (.ok s, g1, m) => (.ok (-s), g1.pop mv1, m) := by
  have h := singular_move_keeps_depth (fun _ => false) 1 0 4 gSing
    (mv1, tLeaf) 0 10 (by omega) rfl
  exact ⟨h.1 rfl, h.2.2 rfl⟩

/-! ## C5: singular root short-circuit -/

/-- C5.  For every requested depth, when the root position has exactly
one legal move `get_best_move` returns that move immediately with
score 0 and the forced flag set, leaving the game and the cancellation
load counter untouched (so no root iteration, ordering or recursion
takes place). -/
theorem singular_root_short_circuit (sched : Nat → Bool)
    (fuel n depth : Nat) (g : ChessGame) (c : Move × GameTree)
    (h : g.get_moves true = [c]) :
    get_best_move sched fuel g n depth = (.ok (some c.1, 0, true), g, n) := by
  simp [get_best_move, h]

/-- Witness for C5 at a concrete forced position, for two depths. -/
theorem singular_root_short_circuit_witness :
    get_best_move (fun _ => false) 3 gSing 0 6 =
      (.ok (some mv1, 0, true), gSing, 0)
    ∧ get_best_move (fun _ => false) 3 gSing 0 9 =
      (.ok (some mv1, 0, true), gSing, 0) :=
  ⟨singular_root_short_circuit (fun _ => false) 3 0 6 gSing (mv1, tLeaf) rfl,
   singular_root_short_circuit (fun _ => false) 3 0 9 gSing (mv1, tLeaf) rfl⟩

/-! ## C3: a root without moves (corrected) -/

/-- C3 counterexample.  At a concrete checkmated root (no legal moves,
king targeted, ply count 3) `get_best_move` does **not** return the
checkmate/stalemate formula: it returns no move with the sentinel
score `-Score::MAX`, which differs both from
`Score::MIN + 100 + ply_count` and from the stalemate score `0`. -/
theorem root_no_moves_counterexample :
    get_best_move (fun _ => false) 5 gEmpty3 0 6 =
      (.ok (none, -Score.MAX, false), gEmpty3, 0)
    ∧ gEmpty3.get_moves true = []
    ∧ gEmpty3.is_king_targeted = true
    ∧ -Score.MAX ≠ Score.MIN + 100 + (gEmpty3.len : Int)
    ∧ -Score.MAX ≠ 0 := by
  refine ⟨rfl, rfl, rfl, by decide, by decide⟩

/-- C3 amended.  If the root position has zero legal moves,
`get_best_move` returns `Ok((None, -Score::MAX, false))` — no move and
the sentinel initial best score — leaving the game untouched; the
checkmate/stalemate formula is not computed at the root (it is computed
only inside the recursive score routines, which the empty root loop
never calls). -/
theorem root_no_moves_returns_sentinel (sched : Nat → Bool)
    (fuel n depth : Nat) (g : ChessGame)
    (h : g.get_moves true = []) :
    get_best_move sched fuel g n depth =
      (.ok (none, -Score.MAX, false), g, n) := by
  simp [get_best_move, h, rootLoop]

/-- Witness for the amended C3. -/
theorem root_no_moves_returns_sentinel_witness :
    get_best_move (fun _ => false) 7 gEmpty3 2 8 =
      (.ok (none, -Score.MAX, false), gEmpty3, 2) :=
  root_no_moves_returns_sentinel (fun _ => false) 7 2 8 gEmpty3 rfl

/-! ## C2: cancellation aborts the search -/

/-- C2.  Whenever the shared cancellation flag is set,
`get_best_move_score` returns `Err(())` at once (so with the flag set
every enclosing recursive call likewise returns `Err` — each checks the
flag on entry before anything else); the abort propagates through
`get_best_move` whenever the root loop runs (at least two root moves),
and the deepening driver then stops and returns the best move of the
last fully completed depth — `None` if no depth completed. -/
theorem cancellation_aborts_search (sched : Nat → Bool) (fuel : Nat)
    (g : ChessGame) :
    (∀ n depth alpha beta, sched n = true →
      get_best_move_score sched (fuel + 1) g n depth alpha beta =
        (.error (), g, n + 1))
    ∧ (∀ n depth, sched n = true → 2 ≤ (g.get_moves true).length →
      (get_best_move sched (fuel + 1) g n depth).1 = .error ())
    ∧ (∀ n depth itf last_score found_move, sched n = true →
      2 ≤ (g.get_moves true).length →
      deepenLoop sched (fuel + 1) g (itf + 1) depth n last_score found_move =
        found_move)
    ∧ (∀ itf, sched 0 = true → 2 ≤ (g.get_moves true).length →
      get_best_move_in_time sched (fuel + 1) g (itf + 1) = none) := by
  have hscore : ∀ n depth alpha beta, sched n = true →
      get_best_move_score sched (fuel + 1) g n depth alpha beta =
        (.error (), g, n + 1) := by
    intro n depth alpha beta h
    simp [get_best_move_score, h]
  have hmove : ∀ n depth c1 c2 rest, sched n = true →
      g.get_moves true = c1 :: c2 :: rest →
      get_best_move sched (fuel + 1) g n depth =
        (.error (), g.push c1, n + 1) := by
    intro n depth c1 c2 rest h hms
    have hpush : get_best_move_score sched (fuel + 1) (g.push c1) n
        (depth - 1) (Score.MIN + 1) (Score.MAX) =
        (.error (), g.push c1, n + 1) := by
      simp [get_best_move_score, h]
    simp [get_best_move, hms, rootLoop, hpush]
  refine ⟨hscore, ?_, ?_, ?_⟩
  · intro n depth h hlen
    rcases hms : g.get_moves true with _ | ⟨c1, _ | ⟨c2, rest⟩⟩ <;>
      rw [hms] at hlen
    · simp at hlen
    · simp at hlen
    · rw [hmove n depth c1 c2 rest h hms]
  · intro n depth itf last_score found_move h hlen
    rcases hms : g.get_moves true with _ | ⟨c1, _ | ⟨c2, rest⟩⟩ <;>
      rw [hms] at hlen
    · simp at hlen
    · simp at hlen
    · rw [deepenLoop, hmove n depth c1 c2 rest h hms]
  · intro itf h hlen
    rcases hms : g.get_moves true with _ | ⟨c1, _ | ⟨c2, rest⟩⟩ <;>
      rw [hms] at hlen
    · simp at hlen
    · simp at hlen
    · rw [get_best_move_in_time, deepenLoop, hmove 0 5 c1 c2 rest h hms]

/-- Witness for C2 with the flag permanently set and a concrete
two-move root position. -/
theorem cancellation_aborts_search_witness :
    get_best_move_score (fun _ => true) 4 gTwo 0 7 0 0 =
      (.error (), gTwo, 1)
    ∧ (get_best_move (fun _ => true) 4 gTwo 0 7).1 = .error ()
    ∧ deepenLoop (fun _ => true) 4 gTwo 2 7 0 none (some mv2) = some mv2
    ∧ get_best_move_in_time (fun _ => true) 4 gTwo 3 = none := by
  have h := cancellation_aborts_search (fun _ => true) 3 gTwo
  exact ⟨h.1 0 7 0 0 rfl, h.2.1 0 7 rfl (by decide),
    h.2.2.1 0 7 1 none (some mv2) rfl (by decide),
    h.2.2.2 2 rfl (by decide)⟩

/-! ## C7: the default comparator's ordering -/

/-- In the modelled piece-type order, a strictly cheaper piece type has
the strictly larger discriminant. -/
theorem PieceType.val_lt_of_value_lt {a b : PieceType}
    (h : a.value < b.value) : b.val < a.val := by
  cases a <;> cases b <;> revert h <;> decide

/-- C7.  `simple_sort` ranks every capture before every quiet `Normal`
move and every `Promotion` before every `Normal` move (in both argument
orders); between two captures it compares the captured piece types
first, and on equal captured types it compares the attackers reversed,
so the move with the strictly cheaper attacking piece ranks first. -/
theorem simple_sort_capture_promotion_order (pa pb pp va vb : Piece)
    (sa ea sb eb sp ep : Position) (cb : Option Piece) (k : PieceType) :
    (simple_sort (.Normal pa sa ea (some va)) (.Normal pb sb eb none) =
      .lt)
    ∧ (simple_sort (.Normal pa sa ea none) (.Normal pb sb eb (some vb)) =
      .gt)
    ∧ (simple_sort (.Promotion pp sp ep k) (.Normal pb sb eb cb) = .lt)
    ∧ (simple_sort (.Normal pa sa ea cb) (.Promotion pp sp ep k) = .gt)
    ∧ (va.piece_type ≠ vb.piece_type →
      simple_sort (.Normal pa sa ea (some va)) (.Normal pb sb eb (some vb)) =
        va.piece_type.cmp vb.piece_type)
    ∧ (va.piece_type = vb.piece_type →
      simple_sort (.Normal pa sa ea (some va)) (.Normal pb sb eb (some vb)) =
        pb.piece_type.cmp pa.piece_type)
    ∧ (va.piece_type = vb.piece_type →
      pa.piece_type.value < pb.piece_type.value →
      simple_sort (.Normal pa sa ea (some va)) (.Normal pb sb eb (some vb)) =
        .lt) := by
  refine ⟨rfl, rfl, rfl, ?_, ?_, ?_, ?_⟩
  · cases cb <;> rfl
  · intro h; simp [simple_sort, h]
  · intro h; simp [simple_sort, h]
  · intro h hval
    have hlt := PieceType.val_lt_of_value_lt hval
    simp [simple_sort, h, PieceType.cmp, Nat.compare_eq_lt, hlt]

/-- Witness for C7: a pawn-takes-queen capture, a quiet knight move, a
promotion, and the cheaper-attacker tie-break pawn-vs-rook on equal
knight victims. -/
theorem simple_sort_capture_promotion_order_witness :
    simple_sort (.Normal ⟨.pawn, 1⟩ ⟨0, 3⟩ ⟨1, 4⟩ (some ⟨.queen, -1⟩))
      (.Normal ⟨.knight, 1⟩ ⟨1, 0⟩ ⟨2, 2⟩ none) = .lt
    ∧ simple_sort (.Promotion ⟨.pawn, 1⟩ ⟨6, 6⟩ ⟨6, 7⟩ .queen)
      (.Normal ⟨.knight, 1⟩ ⟨1, 0⟩ ⟨2, 2⟩ none) = .lt
    ∧ simple_sort
      (.Normal ⟨.pawn, 1⟩ ⟨0, 3⟩ ⟨1, 4⟩ (some ⟨.knight, -1⟩))
      (.Normal ⟨.rook, 1⟩ ⟨1, 4⟩ ⟨5, 4⟩ (some ⟨.knight, -1⟩)) = .lt := by
  have h := simple_sort_capture_promotion_order ⟨.pawn, 1⟩ ⟨.rook, 1⟩
    ⟨.pawn, 1⟩ ⟨.knight, -1⟩ ⟨.knight, -1⟩ ⟨0, 3⟩ ⟨1, 4⟩ ⟨1, 4⟩ ⟨5, 4⟩
    ⟨6, 6⟩ ⟨6, 7⟩ none .queen
  exact ⟨(simple_sort_capture_promotion_order ⟨.pawn, 1⟩ ⟨.knight, 1⟩
      ⟨.pawn, 1⟩ ⟨.queen, -1⟩ ⟨.queen, -1⟩ ⟨0, 3⟩ ⟨1, 4⟩ ⟨1, 0⟩ ⟨2, 2⟩
      ⟨6, 6⟩ ⟨6, 7⟩ none .queen).1,
    h.2.2.1, h.2.2.2.2.2.2 rfl (by decide)⟩

/-! ## C8: no recapture boost exists (corrected) -/

/-- The opponent's last move in the C8 scenario: a knight lands on
square `(4,4)`. -/
def mLast : Move := .Normal ⟨.knight, -1⟩ ⟨6, 5⟩ ⟨4, 4⟩ none

/-- A capture of a knight away from the last-destination square. -/
def mO : Move := .Normal ⟨.pawn, 1⟩ ⟨0, 3⟩ ⟨1, 4⟩ (some ⟨.knight, -1⟩)

/-- A recapture of the knight on the last-destination square `(4,4)`. -/
def mR : Move := .Normal ⟨.pawn, 1⟩ ⟨3, 3⟩ ⟨4, 4⟩ (some ⟨.knight, -1⟩)

/-- The position after the opponent's knight move: the side to move has
the distant capture and the recapture, generated in that order. -/
def tAfter : GameTree :=
  .node 0 false [(mO, .node 1 false []), (mR, .node 1 false [])]

/-- The position before the opponent's knight move. -/
def gPrev8 : ChessGame := ⟨.node 0 false [(mLast, tAfter)], -1, 2, none, []⟩

/-- The C8 scenario: the game right after the opponent's move to
`(4,4)` was pushed, so the tracked last destination is `(4,4)`. -/
def gRecap : ChessGame := gPrev8.push (mLast, tAfter)

/-- C8 counterexample.  In a concrete position whose tracked last
destination is `(4,4)`, the recapture `mR` on `(4,4)` is **not** ranked
ahead of the equal-material capture `mO` elsewhere: the comparator —
the only ordering criterion the sorting pass consults — rates the two
moves `Equal` in both orders, not `Less`, so no sort driven by it can
rank the recapture ahead. -/
theorem recapture_boost_counterexample :
    gRecap.lastDest = some ⟨4, 4⟩
    ∧ mR.finish = ⟨4, 4⟩
    ∧ mO.finish ≠ ⟨4, 4⟩
    ∧ simple_sort mR mO = .eq
    ∧ simple_sort mO mR = .eq := by
  refine ⟨rfl, rfl, by decide, by decide, by decide⟩

/-- C8 amended.  The default comparator is a function of the two moves
alone — it is never given the game or its tracked last destination —
and two captures with equal captured piece types and equal attacking
piece types compare `Equal` in both orders, so the comparator gives a
recapture no precedence over an equal-material capture; any relative
order among such comparator-equal captures is an unspecified tie-break
of `sort_unstable_by`, not a boost. -/
theorem equal_material_captures_tie (pa pb va vb : Piece)
    (sa ea sb eb : Position)
    (hv : va.piece_type = vb.piece_type)
    (hp : pa.piece_type = pb.piece_type) :
    simple_sort (.Normal pa sa ea (some va)) (.Normal pb sb eb (some vb)) =
      .eq
    ∧ simple_sort (.Normal pb sb eb (some vb)) (.Normal pa sa ea (some va)) =
      .eq := by
  constructor
  · simp [simple_sort, hv, hp, PieceType.cmp, Nat.compare_eq_eq]
  · simp [simple_sort, hv, hp, PieceType.cmp, Nat.compare_eq_eq]

/-- Witness for the amended C8: the two equal-material captures of the
counterexample scenario compare `Equal` in both orders. -/
theorem equal_material_captures_tie_witness :
    simple_sort mO mR = .eq
    ∧ simple_sort mR mO = .eq :=
  equal_material_captures_tie ⟨.pawn, 1⟩ ⟨.pawn, 1⟩ ⟨.knight, -1⟩
    ⟨.knight, -1⟩ ⟨0, 3⟩ ⟨1, 4⟩ ⟨3, 3⟩ ⟨4, 4⟩ rfl rfl

/-! ## C9: malformed FEN leaves the game unchanged -/

/-- C9.  A structurally malformed position-description string makes
`ChessGame::new` return a distinguished error (so no game object is
produced), and whenever the constructor errors the front end's
`position fen` handler keeps the current game completely unchanged. -/
theorem fen_failure_retains_game (g : ChessGame) (s : String) :
    ((splitOnChar ' ' s.toList).filter (fun t => t ≠ []) = [] →
      ChessGame.new s = .error "invalid position description")
    ∧ (∀ e, ChessGame.new s = .error e → handleFen g s = g) := by
  constructor
  · intro h
    have h2 : List.filter (fun t => !decide (t = []))
        (splitOnChar ' ' s.data) = [] := by simpa using h
    simp [ChessGame.new, h2]
  · intro e h
    simp [handleFen, h]

/-- Witness for C9: the garbage string `"not@fen"` errors and the
current game survives. -/
theorem fen_failure_retains_game_witness :
    ChessGame.new "not@fen" = .error "invalid position description"
    ∧ handleFen gTwo "not@fen" = gTwo := by
  have h := fen_failure_retains_game gTwo "not@fen"
  have he : ChessGame.new "not@fen" = .error "invalid position description" :=
    by rfl
  exact ⟨he, h.2 "invalid position description" he⟩

/-! ## Infrastructure for the ordering (C6) and abort-leak (C10) claims -/

/-- Once a monotone schedule shows the flag set, it stays set. -/
theorem sched_mono_le {sched : Nat → Bool} (hm : monoSched sched) {i j : Nat}
    (h : sched i = true) (hij : i ≤ j) : sched j = true := by
  induction hij with
  | refl => exact h
  | step _ ih => exact hm _ ih

/-- Unfolding `get_best_move_score` at a set flag: immediate abort. -/
theorem score_succ_flagged (sched : Nat → Bool) (fuel : Nat) (g : ChessGame)
    (n depth : Nat) (alpha beta : Int) (hs : sched n = true) :
    get_best_move_score sched (fuel + 1) g n depth alpha beta =
      (.error (), g, n + 1) := by
  simp [get_best_move_score, hs]

/-- Unfolding `get_best_move_score` at depths 2, 1 and 0. -/
theorem score_succ_shallow (sched : Nat → Bool) (fuel : Nat) (g : ChessGame)
    (n : Nat) (alpha beta : Int) (hs : sched n = false) :
    get_best_move_score sched (fuel + 1) g n 2 alpha beta =
      (.ok (get_best_move_score_depth_2 fuel g alpha beta), g, n + 1)
    ∧ get_best_move_score sched (fuel + 1) g n 1 alpha beta =
      (.ok (get_best_move_score_depth_1 fuel g alpha beta), g, n + 1)
    ∧ get_best_move_score sched (fuel + 1) g n 0 alpha beta =
      (.ok (g.score * g.current_player), g, n + 1) := by
  refine ⟨?_, ?_, ?_⟩ <;> simp [get_best_move_score, hs]

/-- Unfolding `get_best_move_score` at a terminal node (no moves). -/
theorem score_succ_empty (sched : Nat → Bool) (fuel : Nat) (g : ChessGame)
    (n depth : Nat) (alpha beta : Int) (hs : sched n = false)
    (hd : 3 ≤ depth) (hms : g.get_moves true = []) :
    get_best_move_score sched (fuel + 1) g n depth alpha beta =
      (.ok (if g.is_king_targeted then Score.MIN + 100 + (g.len : Int)
        else 0), g, n + 1) := by
  have h2 : depth ≠ 2 := by omega
  have h1 : depth ≠ 1 := by omega
  have h0 : depth ≠ 0 := by omega
  cases hT : g.is_king_targeted <;>
    simp [get_best_move_score, hs, h2, h1, h0, hms, hT]

/-- Unfolding `get_best_move_score` at a forced node whose recursion
aborts: the abort is passed on and the pop is skipped. -/
theorem score_succ_single_err (sched : Nat → Bool) (fuel : Nat)
    (g g1 : ChessGame) (n m depth : Nat) (alpha beta : Int)
    (c : Move × GameTree) (hs : sched n = false) (hd : 3 ≤ depth)
    (hms : g.get_moves true = [c])
    (hid : get_best_move_score sched fuel (g.push c) (n + 1) depth
      (-beta) (-alpha) = (.error (), g1, m)) :
    get_best_move_score sched (fuel + 1) g n depth alpha beta =
      (.error (), g1, m) := by
  have h2 : depth ≠ 2 := by omega
  have h1 : depth ≠ 1 := by omega
  have h0 : depth ≠ 0 := by omega
  simp [get_best_move_score, hs, h2, h1, h0, hms, hid]

/-- Unfolding `get_best_move_score` at a forced node whose recursion
returns a score: pop and negate. -/
theorem score_succ_single_ok (sched : Nat → Bool) (fuel : Nat)
    (g g1 : ChessGame) (n m depth : Nat) (alpha beta s : Int)
    (c : Move × GameTree) (hs : sched n = false) (hd : 3 ≤ depth)
    (hms : g.get_moves true = [c])
    (hid : get_best_move_score sched fuel (g.push c) (n + 1) depth
      (-beta) (-alpha) = (.ok s, g1, m)) :
    get_best_move_score sched (fuel + 1) g n depth alpha beta =
      (.ok (-s), g1.pop c.1, m) := by
  have h2 : depth ≠ 2 := by omega
  have h1 : depth ≠ 1 := by omega
  have h0 : depth ≠ 0 := by omega
  simp [get_best_move_score, hs, h2, h1, h0, hms, hid]

/-- Unfolding `get_best_move_score` at a branching node below the
expensive-ordering threshold. -/
theorem score_succ_simple (sched : Nat → Bool) (fuel : Nat) (g : ChessGame)
    (n depth : Nat) (alpha beta : Int) (c1 c2 : Move × GameTree)
    (rest : List (Move × GameTree)) (hs : sched n = false)
    (hd : 3 ≤ depth) (h5 : depth < 5)
    (hms : g.get_moves true = c1 :: c2 :: rest) :
    get_best_move_score sched (fuel + 1) g n depth alpha beta =
      searchLoop
        (fun gp nn a => get_best_move_score sched fuel gp nn (depth - 1)
          (-beta) (-a)) beta (sortSimple (c1 :: c2 :: rest)) g (n + 1)
        alpha := by
  have h2 : depth ≠ 2 := by omega
  have h1 : depth ≠ 1 := by omega
  have h0 : depth ≠ 0 := by omega
  have h5' : ¬(5 ≤ depth) := by omega
  simp [get_best_move_score, hs, h2, h1, h0, hms, h5']

/-- Unfolding `get_best_move_score` at a branching node at or above the
expensive-ordering threshold: keys at `depth - 5` are computed by
tentative push/score/pop, the moves are sorted by key, and the main
loop runs on the sorted list from the state the key pass left. -/
theorem score_succ_cached (sched : Nat → Bool) (fuel : Nat) (g : ChessGame)
    (n depth : Nat) (alpha beta : Int) (c1 c2 : Move × GameTree)
    (rest : List (Move × GameTree)) (hs : sched n = false)
    (h5 : 5 ≤ depth)
    (hms : g.get_moves true = c1 :: c2 :: rest) :
    get_best_move_score sched (fuel + 1) g n depth alpha beta =
      searchLoop
        (fun gp nn a => get_best_move_score sched fuel gp nn (depth - 1)
          (-beta) (-a)) beta
        ((sortByKeys (sortScores
          (fun gp nn => get_best_move_score sched fuel gp nn (depth - 5)
            (-beta) (-alpha)) (c1 :: c2 :: rest) g (n + 1)).1).map
          (fun x => x.1))
        (sortScores
          (fun gp nn => get_best_move_score sched fuel gp nn (depth - 5)
            (-beta) (-alpha)) (c1 :: c2 :: rest) g (n + 1)).2.1
        (sortScores
          (fun gp nn => get_best_move_score sched fuel gp nn (depth - 5)
            (-beta) (-alpha)) (c1 :: c2 :: rest) g (n + 1)).2.2
        alpha := by
  have h2 : depth ≠ 2 := by omega
  have h1 : depth ≠ 1 := by omega
  have h0 : depth ≠ 0 := by omega
  simp [get_best_move_score, hs, h2, h1, h0, hms, h5]


/-- The inner move loop never decreases the load counter. -/
theorem searchLoop_loads_le
    (F : ChessGame → Nat → Int → Except Unit Int × ChessGame × Nat)
    (beta : Int) (HFn : ∀ gp nn a, nn ≤ (F gp nn a).2.2) :
    ∀ (l : List (Move × GameTree)) (g : ChessGame) (n : Nat) (alpha : Int),
      n ≤ (searchLoop F beta l g n alpha).2.2 := by
  intro l
  induction l with
  | nil => intro g n alpha; simp [searchLoop]
  | cons c rest ih =>
    intro g n alpha
    have hF := HFn (g.push c) n alpha
    rcases hFd : F (g.push c) n alpha with ⟨r, g1, n1⟩
    rw [hFd] at hF
    cases r with
    | error e => simp [searchLoop, hFd]; exact hF
    | ok s =>
      simp only [searchLoop, hFd]
      by_cases hb : beta ≤ max alpha (-s)
      · simp [hb]; exact hF
      · simp [hb]
        exact le_trans hF (ih _ _ _)

/-- The key-extraction pass never decreases the load counter. -/
theorem sortScores_loads_le
    (F : ChessGame → Nat → Except Unit Int × ChessGame × Nat)
    (HFn : ∀ gp nn, nn ≤ (F gp nn).2.2) :
    ∀ (l : List (Move × GameTree)) (g : ChessGame) (n : Nat),
      n ≤ (sortScores F l g n).2.2 := by
  intro l
  induction l with
  | nil => intro g n; simp [sortScores]
  | cons c rest ih =>
    intro g n
    have hF := HFn (g.push c) n
    simp only [sortScores]
    exact le_trans hF (ih _ _)

/-- The root loop never decreases the load counter. -/
theorem rootLoop_loads_le
    (F : ChessGame → Nat → Int → Except Unit Int × ChessGame × Nat)
    (HFn : ∀ gp nn a, nn ≤ (F gp nn a).2.2) :
    ∀ (l : List (Move × GameTree)) (g : ChessGame) (n : Nat)
      (bm : Option Move) (bs : Int),
      n ≤ (rootLoop F l g n bm bs).2.2 := by
  intro l
  induction l with
  | nil => intro g n bm bs; simp [rootLoop]
  | cons c rest ih =>
    intro g n bm bs
    have hF := HFn (g.push c) n bs
    rcases hFd : F (g.push c) n bs with ⟨r, g1, n1⟩
    rw [hFd] at hF
    cases r with
    | error e => simp [rootLoop, hFd]; exact hF
    | ok s =>
      simp only [rootLoop, hFd]
      by_cases hb : bs < -s
      · simp [hb]; exact le_trans hF (ih _ _ _ _)
      · simp [hb]; exact le_trans hF (ih _ _ _ _)

/-- The search never decreases the load counter. -/
theorem score_loads_le (sched : Nat → Bool) :
    ∀ (fuel : Nat) (g : ChessGame) (n depth : Nat) (alpha beta : Int),
      n ≤ (get_best_move_score sched fuel g n depth alpha beta).2.2 := by
  intro fuel
  induction fuel with
  | zero => intro g n depth alpha beta; simp [get_best_move_score]
  | succ fuel ih =>
    intro g n depth alpha beta
    by_cases hs : sched n
    · rw [score_succ_flagged sched fuel g n depth alpha beta hs]
      exact Nat.le_succ n
    · have hs' : sched n = false := by simpa using hs
      by_cases h2 : depth = 2
      · rw [h2, (score_succ_shallow sched fuel g n alpha beta hs').1]
        exact Nat.le_succ n
      · by_cases h1 : depth = 1
        · rw [h1, (score_succ_shallow sched fuel g n alpha beta hs').2.1]
          exact Nat.le_succ n
        · by_cases h0 : depth = 0
          · rw [h0, (score_succ_shallow sched fuel g n alpha beta hs').2.2]
            exact Nat.le_succ n
          · have hd : 3 ≤ depth := by omega
            rcases hms : g.get_moves true with _ | ⟨c1, _ | ⟨c2, rest⟩⟩
            · rw [score_succ_empty sched fuel g n depth alpha beta hs' hd hms]
              exact Nat.le_succ n
            · rcases hid : get_best_move_score sched fuel (g.push c1) (n + 1)
                  depth (-beta) (-alpha) with ⟨r, g1, m⟩
              have hinner := ih (g.push c1) (n + 1) depth (-beta) (-alpha)
              rw [hid] at hinner
              cases r with
              | error e =>
                cases e
                rw [score_succ_single_err sched fuel g g1 n m depth alpha
                  beta c1 hs' hd hms hid]
                exact le_trans (Nat.le_succ n) hinner
              | ok s =>
                rw [score_succ_single_ok sched fuel g g1 n m depth alpha
                  beta s c1 hs' hd hms hid]
                exact le_trans (Nat.le_succ n) hinner
            · have HFn : ∀ gp nn a, nn ≤ (get_best_move_score sched fuel gp
                  nn (depth - 1) (-beta) (-a)).2.2 :=
                fun gp nn a => ih gp nn (depth - 1) (-beta) (-a)
              by_cases h5 : 5 ≤ depth
              · rw [score_succ_cached sched fuel g n depth alpha beta c1 c2
                  rest hs' h5 hms]
                have hks := sortScores_loads_le
                  (fun gp nn => get_best_move_score sched fuel gp nn
                    (depth - 5) (-beta) (-alpha))
                  (fun gp nn => ih gp nn (depth - 5) (-beta) (-alpha))
                  (c1 :: c2 :: rest) g (n + 1)
                have hsl := searchLoop_loads_le _ beta HFn
                  ((sortByKeys (sortScores
                    (fun gp nn => get_best_move_score sched fuel gp nn
                      (depth - 5) (-beta) (-alpha)) (c1 :: c2 :: rest) g
                    (n + 1)).1).map (fun x => x.1))
                  (sortScores
                    (fun gp nn => get_best_move_score sched fuel gp nn
                      (depth - 5) (-beta) (-alpha)) (c1 :: c2 :: rest) g
                    (n + 1)).2.1
                  (sortScores
                    (fun gp nn => get_best_move_score sched fuel gp nn
                      (depth - 5) (-beta) (-alpha)) (c1 :: c2 :: rest) g
                    (n + 1)).2.2 alpha
                omega
              · have h5' : depth < 5 := by omega
                rw [score_succ_simple sched fuel g n depth alpha beta c1 c2
                  rest hs' hd h5' hms]
                have hsl := searchLoop_loads_le _ beta HFn
                  (sortSimple (c1 :: c2 :: rest)) g (n + 1) alpha
                omega

/-- If the inner move loop aborts, some load inside it saw the flag
set. -/
theorem searchLoop_error_load
    (F : ChessGame → Nat → Int → Except Unit Int × ChessGame × Nat)
    (beta : Int) (sched : Nat → Bool)
    (HFn : ∀ gp nn a, nn ≤ (F gp nn a).2.2)
    (HFtrue : ∀ gp nn a, (F gp nn a).1 = .error () →
      ∃ k, nn ≤ k ∧ k < (F gp nn a).2.2 ∧ sched k = true) :
    ∀ (l : List (Move × GameTree)) (g : ChessGame) (n : Nat) (alpha : Int),
      (searchLoop F beta l g n alpha).1 = .error () →
      ∃ k, n ≤ k ∧ k < (searchLoop F beta l g n alpha).2.2 ∧
        sched k = true := by
  intro l
  induction l with
  | nil => intro g n alpha h; simp [searchLoop] at h
  | cons c rest ih =>
    intro g n alpha h
    have hF := HFtrue (g.push c) n alpha
    have hFn := HFn (g.push c) n alpha
    rcases hFd : F (g.push c) n alpha with ⟨r, g1, n1⟩
    rw [hFd] at hF hFn
    cases r with
    | error e =>
      cases e
      rcases hF rfl with ⟨k, hk1, hk2, hk3⟩
      refine ⟨k, hk1, ?_, hk3⟩
      simpa [searchLoop, hFd] using hk2
    | ok s =>
      rw [searchLoop, hFd] at h ⊢
      by_cases hb : beta ≤ max alpha (-s)
      · simp [hb] at h
      · simp only [hb, if_false] at h ⊢
        rcases ih _ _ _ h with ⟨k, hk1, hk2, hk3⟩
        exact ⟨k, le_trans hFn hk1, hk2, hk3⟩

/-- If the search aborts, some load during it saw the flag set. -/
theorem score_error_load (sched : Nat → Bool) :
    ∀ (fuel : Nat) (g : ChessGame) (n depth : Nat) (alpha beta : Int),
      (get_best_move_score sched fuel g n depth alpha beta).1 = .error () →
      ∃ k, n ≤ k ∧
        k < (get_best_move_score sched fuel g n depth alpha beta).2.2 ∧
        sched k = true := by
  intro fuel
  induction fuel with
  | zero => intro g n depth alpha beta h; simp [get_best_move_score] at h
  | succ fuel ih =>
    intro g n depth alpha beta h
    by_cases hs : sched n
    · rw [score_succ_flagged sched fuel g n depth alpha beta hs]
      exact ⟨n, le_refl n, Nat.lt_succ_self n, hs⟩
    · have hs' : sched n = false := by simpa using hs
      by_cases h2 : depth = 2
      · rw [h2, (score_succ_shallow sched fuel g n alpha beta hs').1] at h
        simp at h
      · by_cases h1 : depth = 1
        · rw [h1, (score_succ_shallow sched fuel g n alpha beta hs').2.1]
            at h
          simp at h
        · by_cases h0 : depth = 0
          · rw [h0, (score_succ_shallow sched fuel g n alpha beta hs').2.2]
              at h
            simp at h
          · have hd : 3 ≤ depth := by omega
            rcases hms : g.get_moves true with _ | ⟨c1, _ | ⟨c2, rest⟩⟩
            · rw [score_succ_empty sched fuel g n depth alpha beta hs' hd
                hms] at h
              simp at h
            · rcases hid : get_best_move_score sched fuel (g.push c1) (n + 1)
                  depth (-beta) (-alpha) with ⟨r, g1, m⟩
              cases r with
              | error e =>
                cases e
                have hrec := ih (g.push c1) (n + 1) depth (-beta) (-alpha)
                rw [hid] at hrec
                rcases hrec rfl with ⟨k, hk1, hk2, hk3⟩
                rw [score_succ_single_err sched fuel g g1 n m depth alpha
                  beta c1 hs' hd hms hid]
                exact ⟨k, by omega, hk2, hk3⟩
              | ok s =>
                rw [score_succ_single_ok sched fuel g g1 n m depth alpha
                  beta s c1 hs' hd hms hid] at h
                simp at h
            · have HFn : ∀ gp nn a, nn ≤ (get_best_move_score sched fuel gp
                  nn (depth - 1) (-beta) (-a)).2.2 :=
                fun gp nn a => score_loads_le sched fuel gp nn (depth - 1)
                  (-beta) (-a)
              have HFtrue : ∀ gp nn a,
                  (get_best_move_score sched fuel gp nn (depth - 1) (-beta)
                    (-a)).1 = .error () →
                  ∃ k, nn ≤ k ∧ k < (get_best_move_score sched fuel gp nn
                    (depth - 1) (-beta) (-a)).2.2 ∧ sched k = true :=
                fun gp nn a => ih gp nn (depth - 1) (-beta) (-a)
              by_cases h5 : 5 ≤ depth
              · rw [score_succ_cached sched fuel g n depth alpha beta c1 c2
                  rest hs' h5 hms] at h ⊢
                have hks := sortScores_loads_le
                  (fun gp nn => get_best_move_score sched fuel gp nn
                    (depth - 5) (-beta) (-alpha))
                  (fun gp nn => score_loads_le sched fuel gp nn (depth - 5)
                    (-beta) (-alpha)) (c1 :: c2 :: rest) g (n + 1)
                rcases searchLoop_error_load _ beta sched HFn HFtrue _ _ _ _ h
                  with ⟨k, hk1, hk2, hk3⟩
                exact ⟨k, by omega, hk2, hk3⟩
              · have h5' : depth < 5 := by omega
                rw [score_succ_simple sched fuel g n depth alpha beta c1 c2
                  rest hs' hd h5' hms] at h ⊢
                rcases searchLoop_error_load _ beta sched HFn HFtrue _ _ _ _ h
                  with ⟨k, hk1, hk2, hk3⟩
                exact ⟨k, by omega, hk2, hk3⟩

/-- If every completed inner call restores the game it was handed, a
completed move loop restores the game too (each iteration's pop undoes
its push). -/
theorem searchLoop_restore
    (F : ChessGame → Nat → Int → Except Unit Int × ChessGame × Nat)
    (beta : Int)
    (HFok : ∀ gp nn a s, (F gp nn a).1 = .ok s → (F gp nn a).2.1 = gp) :
    ∀ (l : List (Move × GameTree)) (g : ChessGame) (n : Nat) (alpha s : Int),
      (searchLoop F beta l g n alpha).1 = .ok s →
      (searchLoop F beta l g n alpha).2.1 = g := by
  intro l
  induction l with
  | nil => intro g n alpha s _; simp [searchLoop]
  | cons c rest ih =>
    intro g n alpha s h
    have hF := HFok (g.push c) n alpha
    rcases hFd : F (g.push c) n alpha with ⟨r, g1, n1⟩
    rw [hFd] at hF
    cases r with
    | error e => rw [searchLoop, hFd] at h; simp at h
    | ok s' =>
      have hg1 : g1 = g.push c := hF s' rfl
      have hpop : g1.pop c.1 = g := by rw [hg1]; exact ChessGame.pop_push g c c.1
      rw [searchLoop, hFd] at h ⊢
      by_cases hb : beta ≤ max alpha (-s')
      · simp only [hb, if_true]
        exact hpop
      · simp only [hb, if_false] at h ⊢
        rw [hpop] at h ⊢
        exact ih _ _ _ _ h

/-- If an aborting inner call never shrinks the game below the state it
was handed, an aborting move loop leaves the game at least one ply
longer than at entry (the pending push is never popped). -/
theorem searchLoop_error_leak
    (F : ChessGame → Nat → Int → Except Unit Int × ChessGame × Nat)
    (beta : Int)
    (HFok : ∀ gp nn a s, (F gp nn a).1 = .ok s → (F gp nn a).2.1 = gp)
    (HFerrC : ∀ gp nn a, (F gp nn a).1 = .error () →
      gp.len ≤ (F gp nn a).2.1.len) :
    ∀ (l : List (Move × GameTree)) (g : ChessGame) (n : Nat) (alpha : Int),
      (searchLoop F beta l g n alpha).1 = .error () →
      g.len + 1 ≤ (searchLoop F beta l g n alpha).2.1.len := by
  intro l
  induction l with
  | nil => intro g n alpha h; simp [searchLoop] at h
  | cons c rest ih =>
    intro g n alpha h
    rcases hFd : F (g.push c) n alpha with ⟨r, g1, n1⟩
    cases r with
    | error e =>
      cases e
      have hlen := HFerrC (g.push c) n alpha
      rw [hFd] at hlen
      have hlen2 := hlen rfl
      rw [ChessGame.len_push] at hlen2
      rw [searchLoop, hFd]
      exact hlen2
    | ok s' =>
      have hF := HFok (g.push c) n alpha
      rw [hFd] at hF
      have hg1 : g1 = g.push c := hF s' rfl
      have hpop : g1.pop c.1 = g := by rw [hg1]; exact ChessGame.pop_push g c c.1
      rw [searchLoop, hFd] at h ⊢
      by_cases hb : beta ≤ max alpha (-s')
      · simp [hb] at h
      · simp only [hb, if_false] at h ⊢
        rw [hpop] at h ⊢
        exact ih _ _ _ h

/-- Same as `searchLoop_error_leak` for the root loop of
`get_best_move`, whose `?` likewise skips the pending pop. -/
theorem rootLoop_error_leak
    (F : ChessGame → Nat → Int → Except Unit Int × ChessGame × Nat)
    (HFok : ∀ gp nn a s, (F gp nn a).1 = .ok s → (F gp nn a).2.1 = gp)
    (HFerrC : ∀ gp nn a, (F gp nn a).1 = .error () →
      gp.len ≤ (F gp nn a).2.1.len) :
    ∀ (l : List (Move × GameTree)) (g : ChessGame) (n : Nat)
      (bm : Option Move) (bs : Int),
      (rootLoop F l g n bm bs).1 = .error () →
      g.len + 1 ≤ (rootLoop F l g n bm bs).2.1.len := by
  intro l
  induction l with
  | nil => intro g n bm bs h; simp [rootLoop] at h
  | cons c rest ih =>
    intro g n bm bs h
    rcases hFd : F (g.push c) n bs with ⟨r, g1, n1⟩
    cases r with
    | error e =>
      cases e
      have hlen := HFerrC (g.push c) n bs
      rw [hFd] at hlen
      have hlen2 := hlen rfl
      rw [ChessGame.len_push] at hlen2
      rw [rootLoop, hFd]
      exact hlen2
    | ok s' =>
      have hF := HFok (g.push c) n bs
      rw [hFd] at hF
      have hg1 : g1 = g.push c := hF s' rfl
      have hpop : g1.pop c.1 = g := by rw [hg1]; exact ChessGame.pop_push g c c.1
      rw [rootLoop, hFd] at h ⊢
      by_cases hb : bs < -s'
      · simp only [hb, if_true] at h ⊢
        rw [hpop] at h ⊢
        exact ih _ _ _ _ h
      · simp only [hb, if_false] at h ⊢
        rw [hpop] at h ⊢
        exact ih _ _ _ _ h

/-- The key pass produces one key per move. -/
theorem sortScores_length
    (F : ChessGame → Nat → Except Unit Int × ChessGame × Nat) :
    ∀ (l : List (Move × GameTree)) (g : ChessGame) (n : Nat),
      (sortScores F l g n).1.length = l.length := by
  intro l
  induction l with
  | nil => intro g n; simp [sortScores]
  | cons c rest ih => intro g n; simp [sortScores, ih]

/-- State of the game after the key pass: either every key call
restored the game exactly, or some key call aborted — and then the flag
is set at the final load counter (monotone schedule) and the game is no
shorter than at entry. -/
theorem sortScores_state (sched : Nat → Bool) (hm : monoSched sched)
    (F : ChessGame → Nat → Except Unit Int × ChessGame × Nat)
    (HFok : ∀ gp nn s, (F gp nn).1 = .ok s → (F gp nn).2.1 = gp)
    (HFerrC : ∀ gp nn, (F gp nn).1 = .error () → gp.len ≤ (F gp nn).2.1.len)
    (HFtrue : ∀ gp nn, (F gp nn).1 = .error () →
      ∃ k, nn ≤ k ∧ k < (F gp nn).2.2 ∧ sched k = true)
    (HFn : ∀ gp nn, nn ≤ (F gp nn).2.2) :
    ∀ (l : List (Move × GameTree)) (g : ChessGame) (n : Nat),
      (sortScores F l g n).2.1 = g ∨
      (sched (sortScores F l g n).2.2 = true ∧
        g.len ≤ (sortScores F l g n).2.1.len ∧
        ∃ gp nn, (F gp nn).1 = .error ()) := by
  intro l
  induction l with
  | nil => intro g n; left; simp [sortScores]
  | cons c rest ih =>
    intro g n
    rcases hFd : F (g.push c) n with ⟨r, g1, n1⟩
    cases r with
    | ok s =>
      have hg1 : g1 = g.push c := by
        have := HFok (g.push c) n s; rw [hFd] at this; exact this rfl
      have hpop : g1.pop c.1 = g := by
        rw [hg1]; exact ChessGame.pop_push g c c.1
      have hout := ih g n1
      simp only [sortScores, hFd, hpop]
      rcases ih g n1 with hL | hR
      · left; exact hL
      · right; exact hR
    | error e =>
      cases e
      have hlen : (g.push c).len ≤ g1.len := by
        have := HFerrC (g.push c) n; rw [hFd] at this; exact this rfl
      have hg2len : g.len ≤ (g1.pop c.1).len := by
        have hp := ChessGame.len_pop_ge g1 c.1
        have hpl := ChessGame.len_push g c
        omega
      have htrue : ∃ k, n ≤ k ∧ k < n1 ∧ sched k = true := by
        have := HFtrue (g.push c) n; rw [hFd] at this; exact this rfl
      rcases htrue with ⟨k, hk1, hk2, hk3⟩
      right
      simp only [sortScores, hFd]
      have hrestn : n1 ≤ (sortScores F rest (g1.pop c.1) n1).2.2 :=
        sortScores_loads_le F HFn rest (g1.pop c.1) n1
      refine ⟨?_, ?_, ⟨g.push c, n, by rw [hFd]⟩⟩
      · exact sched_mono_le hm hk3 (by omega)
      · rcases ih (g1.pop c.1) n1 with hL | hR
        · rw [hL]; exact hg2len
        · exact le_trans hg2len hR.2.1

/-- Core state lemma of the search under a single-writer (monotone)
flag schedule: a call that returns `Ok` restores the game it was handed
exactly; a call that returns `Err` with the flag clear at its entry
leaves the game at least one ply longer than at entry (the pushes on
the abort path are never popped); a call that aborts because the flag
was already set at entry leaves the game unchanged. -/
theorem score_restore_leak (sched : Nat → Bool) (hm : monoSched sched) :
    ∀ (fuel : Nat) (g : ChessGame) (n depth : Nat) (alpha beta : Int),
      (∀ s, (get_best_move_score sched fuel g n depth alpha beta).1 =
          .ok s →
        (get_best_move_score sched fuel g n depth alpha beta).2.1 = g)
      ∧ ((get_best_move_score sched fuel g n depth alpha beta).1 =
          .error () →
        (sched n = true →
          (get_best_move_score sched fuel g n depth alpha beta).2.1 = g)
        ∧ (sched n = false →
          g.len + 1 ≤
            (get_best_move_score sched fuel g n depth alpha beta).2.1.len)) := by
  intro fuel
  induction fuel with
  | zero =>
    intro g n depth alpha beta
    constructor
    · intro s _; simp [get_best_move_score]
    · intro h; simp [get_best_move_score] at h
  | succ fuel ih =>
    intro g n depth alpha beta
    by_cases hs : sched n
    · rw [score_succ_flagged sched fuel g n depth alpha beta hs]
      constructor
      · intro s h; simp at h
      · intro _
        refine ⟨fun _ => rfl, fun hf => ?_⟩
        rw [hs] at hf; cases hf
    · have hs' : sched n = false := by simpa using hs
      by_cases h2 : depth = 2
      · rw [h2, (score_succ_shallow sched fuel g n alpha beta hs').1]
        exact ⟨fun s _ => rfl, fun h => by simp at h⟩
      · by_cases h1 : depth = 1
        · rw [h1, (score_succ_shallow sched fuel g n alpha beta hs').2.1]
          exact ⟨fun s _ => rfl, fun h => by simp at h⟩
        · by_cases h0 : depth = 0
          · rw [h0, (score_succ_shallow sched fuel g n alpha beta hs').2.2]
            exact ⟨fun s _ => rfl, fun h => by simp at h⟩
          · have hd : 3 ≤ depth := by omega
            rcases hms : g.get_moves true with _ | ⟨c1, _ | ⟨c2, rest⟩⟩
            · rw [score_succ_empty sched fuel g n depth alpha beta hs' hd hms]
              exact ⟨fun s _ => rfl, fun h => by simp at h⟩
            · rcases hid : get_best_move_score sched fuel (g.push c1) (n + 1)
                  depth (-beta) (-alpha) with ⟨r, g1, m⟩
              cases r with
              | error e =>
                cases e
                rw [score_succ_single_err sched fuel g g1 n m depth alpha
                  beta c1 hs' hd hms hid]
                constructor
                · intro s h; simp at h
                · intro _
                  refine ⟨fun hT => ?_, fun _ => ?_⟩
                  · rw [hs'] at hT; cases hT
                  · have hinner := (ih (g.push c1) (n + 1) depth (-beta)
                      (-alpha)).2
                    rw [hid] at hinner
                    have hinner2 := hinner rfl
                    cases hSn1 : sched (n + 1) with
                    | true =>
                      have hg1 : g1 = g.push c1 := hinner2.1 hSn1
                      show g.len + 1 ≤ g1.len
                      rw [hg1, ChessGame.len_push]
                    | false =>
                      have hg1 : (g.push c1).len + 1 ≤ g1.len :=
                        hinner2.2 hSn1
                      show g.len + 1 ≤ g1.len
                      rw [ChessGame.len_push] at hg1
                      omega
              | ok s =>
                rw [score_succ_single_ok sched fuel g g1 n m depth alpha
                  beta s c1 hs' hd hms hid]
                constructor
                · intro s2 _
                  have hA := (ih (g.push c1) (n + 1) depth (-beta)
                    (-alpha)).1 s
                  rw [hid] at hA
                  have hg1 : g1 = g.push c1 := hA rfl
                  rw [hg1]
                  exact ChessGame.pop_push g c1 c1.1
                · intro h; simp at h
            · have HFok : ∀ gp nn a s,
                  (get_best_move_score sched fuel gp nn (depth - 1) (-beta)
                    (-a)).1 = .ok s →
                  (get_best_move_score sched fuel gp nn (depth - 1) (-beta)
                    (-a)).2.1 = gp :=
                fun gp nn a s => (ih gp nn (depth - 1) (-beta) (-a)).1 s
              have HFerrC : ∀ gp nn a,
                  (get_best_move_score sched fuel gp nn (depth - 1) (-beta)
                    (-a)).1 = .error () →
                  gp.len ≤ (get_best_move_score sched fuel gp nn (depth - 1)
                    (-beta) (-a)).2.1.len := by
                intro gp nn a h
                have hB := ((ih gp nn (depth - 1) (-beta) (-a)).2 h)
                cases hSn : sched nn with
                | true => rw [hB.1 hSn]
                | false => have := hB.2 hSn; omega
              by_cases h5 : 5 ≤ depth
              · rw [score_succ_cached sched fuel g n depth alpha beta c1 c2
                  rest hs' h5 hms]
                have HF5ok : ∀ gp nn s,
                    (get_best_move_score sched fuel gp nn (depth - 5) (-beta)
                      (-alpha)).1 = .ok s →
                    (get_best_move_score sched fuel gp nn (depth - 5) (-beta)
                      (-alpha)).2.1 = gp :=
                  fun gp nn s => (ih gp nn (depth - 5) (-beta) (-alpha)).1 s
                have HF5errC : ∀ gp nn,
                    (get_best_move_score sched fuel gp nn (depth - 5) (-beta)
                      (-alpha)).1 = .error () →
                    gp.len ≤ (get_best_move_score sched fuel gp nn (depth - 5)
                      (-beta) (-alpha)).2.1.len := by
                  intro gp nn h
                  have hB := ((ih gp nn (depth - 5) (-beta) (-alpha)).2 h)
                  cases hSn : sched nn with
                  | true => rw [hB.1 hSn]
                  | false => have := hB.2 hSn; omega
                have hstate := sortScores_state sched hm
                  (fun gp nn => get_best_move_score sched fuel gp nn
                    (depth - 5) (-beta) (-alpha))
                  HF5ok HF5errC
                  (fun gp nn => score_error_load sched fuel gp nn (depth - 5)
                    (-beta) (-alpha))
                  (fun gp nn => score_loads_le sched fuel gp nn (depth - 5)
                    (-beta) (-alpha))
                  (c1 :: c2 :: rest) g (n + 1)
                constructor
                · intro s h
                  rcases hstate with hL | ⟨hsched, hlen, gp0, nn0, herr0⟩
                  · rw [hL] at h ⊢
                    exact searchLoop_restore _ beta HFok _ _ _ _ _ h
                  · exfalso
                    cases fuel with
                    | zero => simp [get_best_move_score] at herr0
                    | succ fl =>
                      have hlen1 : ((sortByKeys (sortScores
                          (fun gp nn => get_best_move_score sched (fl + 1) gp
                            nn (depth - 5) (-beta) (-alpha))
                          (c1 :: c2 :: rest) g (n + 1)).1).map
                          (fun x => x.1)).length = rest.length + 2 := by
                        rw [List.length_map, sortByKeys,
                          List.length_insertionSort, sortScores_length]
                        simp
                      rcases hLs : (sortByKeys (sortScores
                          (fun gp nn => get_best_move_score sched (fl + 1) gp
                            nn (depth - 5) (-beta) (-alpha))
                          (c1 :: c2 :: rest) g (n + 1)).1).map
                          (fun x => x.1) with _ | ⟨ch, Ltl⟩
                      · rw [hLs] at hlen1; simp at hlen1
                      · rw [hLs, searchLoop] at h
                        rw [score_succ_flagged sched fl _ _ _ _ _ hsched] at h
                        simp at h
                · intro h
                  refine ⟨fun hT => ?_, fun _ => ?_⟩
                  · rw [hs'] at hT; cases hT
                  · have hleak := searchLoop_error_leak _ beta HFok HFerrC
                      _ _ _ _ h
                    rcases hstate with hL | ⟨hsched, hlen, _⟩
                    · rw [hL] at hleak ⊢
                      exact hleak
                    · omega
              · have h5' : depth < 5 := by omega
                rw [score_succ_simple sched fuel g n depth alpha beta c1 c2
                  rest hs' hd h5' hms]
                constructor
                · intro s h
                  exact searchLoop_restore _ beta HFok _ _ _ _ _ h
                · intro h
                  refine ⟨fun hT => ?_, fun _ => ?_⟩
                  · rw [hs'] at hT; cases hT
                  · exact searchLoop_error_leak _ beta HFok HFerrC _ _ _ _ h

/-! ## C10: the abort path leaks its pending pushes -/

/-- A two-move position with five plies of prior history. -/
def gTen : ChessGame :=
  ⟨.node 0 false [(mv1, tLeaf), (mv2, tLeaf)], 1, 5, none, []⟩

/-- The schedule of a timer that sets the flag between the first and
second load. -/
def wsched : Nat → Bool := fun k => decide (1 ≤ k)

/-- C10.  Under a single-writer (monotone) flag schedule: when
`get_best_move_score` aborts with `Err` although the flag was clear at
its entry, the move pushed before the aborted recursive call was never
popped, so the game ends at least one ply longer than at entry; the
same holds for an aborting `get_best_move`; and this is externally
invisible because the deepening driver hands every iteration the same
pristine game (a fresh clone in the source) and discards the mutated
one it gets back. -/
theorem abort_leaves_pushed_move (sched : Nat → Bool) (hm : monoSched sched)
    (fuel : Nat) (g : ChessGame) (n depth : Nat) (alpha beta : Int) :
    ((get_best_move_score sched fuel g n depth alpha beta).1 = .error () →
      sched n = false →
      g.len + 1 ≤
        (get_best_move_score sched fuel g n depth alpha beta).2.1.len)
    ∧ ((get_best_move sched fuel g n depth).1 = .error () →
      g.len + 1 ≤ (get_best_move sched fuel g n depth).2.1.len)
    ∧ (∀ itf last_score found_move bm bs gf n1,
        get_best_move sched fuel g n depth = (.ok (bm, bs, false), gf, n1) →
        ¬(Score.MAX - 1000 < bs) →
        deepenLoop sched fuel g (itf + 1) depth n last_score found_move =
          deepenLoop sched fuel g itf (depth + 1) n1 (some bs) bm) := by
  have HFok : ∀ gp nn a s,
      (get_best_move_score sched fuel gp nn (depth - 1) (Score.MIN + 1)
        (-a)).1 = .ok s →
      (get_best_move_score sched fuel gp nn (depth - 1) (Score.MIN + 1)
        (-a)).2.1 = gp :=
    fun gp nn a s =>
      (score_restore_leak sched hm fuel gp nn (depth - 1) (Score.MIN + 1)
        (-a)).1 s
  have HFerrC : ∀ gp nn a,
      (get_best_move_score sched fuel gp nn (depth - 1) (Score.MIN + 1)
        (-a)).1 = .error () →
      gp.len ≤ (get_best_move_score sched fuel gp nn (depth - 1)
        (Score.MIN + 1) (-a)).2.1.len := by
    intro gp nn a h
    have hB := (score_restore_leak sched hm fuel gp nn (depth - 1)
      (Score.MIN + 1) (-a)).2 h
    cases hSn : sched nn with
    | true => rw [hB.1 hSn]
    | false => have := hB.2 hSn; omega
  refine ⟨?_, ?_, ?_⟩
  · intro h hf
    exact ((score_restore_leak sched hm fuel g n depth alpha beta).2 h).2 hf
  · intro h
    rcases hms : g.get_moves true with _ | ⟨c1, _ | ⟨c2, rest⟩⟩
    · simp [get_best_move, hms, rootLoop] at h
    · simp [get_best_move, hms] at h
    · simp only [get_best_move, hms] at h ⊢
      exact rootLoop_error_leak _ HFok HFerrC _ _ _ _ _ h
  · intro itf last_score found_move bm bs gf n1 hgb hstop
    rw [deepenLoop, hgb]
    simp [hstop]

/-- Witness for C10: with the flag set from the second load on, a
depth-3 search and a root search both abort and hand back a game one
ply longer than they received; a completed depth hands the driver's
next iteration the same original game. -/
theorem abort_leaves_pushed_move_witness :
    monoSched wsched
    ∧ wsched 0 = false
    ∧ (get_best_move_score wsched 2 gTen 0 3 0 0).1 = .error ()
    ∧ gTen.len + 1 ≤ (get_best_move_score wsched 2 gTen 0 3 0 0).2.1.len
    ∧ (get_best_move wsched 2 gTen 0 4).1 = .error ()
    ∧ gTen.len + 1 ≤ (get_best_move wsched 2 gTen 0 4).2.1.len := by
  have hmono : monoSched wsched := by
    intro k h
    simp [wsched]
  have h3 := abort_leaves_pushed_move wsched hmono 2 gTen 0 3 0 0
  have h4 := abort_leaves_pushed_move wsched hmono 2 gTen 0 4 0 0
  refine ⟨hmono, rfl, rfl, h3.1 rfl rfl, rfl, h4.2.1 rfl⟩

/-- A never-set flag is (vacuously) a single-writer schedule. -/
theorem monoSched_cfalse : monoSched (fun _ => false) := by
  intro k h
  simp at h

/-- With no inner abort, the move loop completes with a score. -/
theorem searchLoop_cfalse_ok
    (F : ChessGame → Nat → Int → Except Unit Int × ChessGame × Nat)
    (beta : Int) (HF : ∀ gp nn a, ∃ s, (F gp nn a).1 = .ok s) :
    ∀ (l : List (Move × GameTree)) (g : ChessGame) (n : Nat) (alpha : Int),
      ∃ s, (searchLoop F beta l g n alpha).1 = .ok s := by
  intro l
  induction l with
  | nil => intro g n alpha; exact ⟨alpha, rfl⟩
  | cons c rest ih =>
    intro g n alpha
    rcases HF (g.push c) n alpha with ⟨s, hs⟩
    rcases hFd : F (g.push c) n alpha with ⟨r, g1, n1⟩
    rw [hFd] at hs
    cases r with
    | error e => simp at hs
    | ok s' =>
      rw [searchLoop, hFd]
      by_cases hb : beta ≤ max alpha (-s')
      · exact ⟨max alpha (-s'), by simp [hb]⟩
      · simp only [hb, if_false]
        exact ih _ _ _

/-- With the flag never set the search cannot abort. -/
theorem score_cfalse_ok :
    ∀ (fuel : Nat) (g : ChessGame) (n depth : Nat) (alpha beta : Int),
      ∃ s, (get_best_move_score (fun _ => false) fuel g n depth alpha
        beta).1 = .ok s := by
  intro fuel
  induction fuel with
  | zero => intro g n depth alpha beta; exact ⟨0, rfl⟩
  | succ fuel ih =>
    intro g n depth alpha beta
    have hs' : (fun _ => false) n = false := rfl
    by_cases h2 : depth = 2
    · rw [h2, (score_succ_shallow _ fuel g n alpha beta hs').1]
      exact ⟨_, rfl⟩
    · by_cases h1 : depth = 1
      · rw [h1, (score_succ_shallow _ fuel g n alpha beta hs').2.1]
        exact ⟨_, rfl⟩
      · by_cases h0 : depth = 0
        · rw [h0, (score_succ_shallow _ fuel g n alpha beta hs').2.2]
          exact ⟨_, rfl⟩
        · have hd : 3 ≤ depth := by omega
          rcases hms : g.get_moves true with _ | ⟨c1, _ | ⟨c2, rest⟩⟩
          · rw [score_succ_empty _ fuel g n depth alpha beta hs' hd hms]
            exact ⟨_, rfl⟩
          · rcases ih (g.push c1) (n + 1) depth (-beta) (-alpha)
              with ⟨s, hsok⟩
            rcases hid : get_best_move_score (fun _ => false) fuel
                (g.push c1) (n + 1) depth (-beta) (-alpha) with ⟨r, g1, m⟩
            rw [hid] at hsok
            cases r with
            | error e => simp at hsok
            | ok s2 =>
              rw [score_succ_single_ok _ fuel g g1 n m depth alpha beta s2
                c1 hs' hd hms hid]
              exact ⟨-s2, rfl⟩
          · have HF : ∀ gp nn a, ∃ s,
                (get_best_move_score (fun _ => false) fuel gp nn (depth - 1)
                  (-beta) (-a)).1 = .ok s :=
              fun gp nn a => ih gp nn (depth - 1) (-beta) (-a)
            by_cases h5 : 5 ≤ depth
            · rw [score_succ_cached _ fuel g n depth alpha beta c1 c2 rest
                hs' h5 hms]
              exact searchLoop_cfalse_ok _ beta HF _ _ _ _
            · have h5' : depth < 5 := by omega
              rw [score_succ_simple _ fuel g n depth alpha beta c1 c2 rest
                hs' hd h5' hms]
              exact searchLoop_cfalse_ok _ beta HF _ _ _ _

/-- With the flag never set, the move loop's outcome and final game do
not depend on the starting value of the load counter. -/
theorem searchLoop_shift
    (F : ChessGame → Nat → Int → Except Unit Int × ChessGame × Nat)
    (beta : Int)
    (HF : ∀ gp nn mm a, (F gp nn a).1 = (F gp mm a).1 ∧
      (F gp nn a).2.1 = (F gp mm a).2.1) :
    ∀ (l : List (Move × GameTree)) (g : ChessGame) (n m : Nat) (alpha : Int),
      (searchLoop F beta l g n alpha).1 = (searchLoop F beta l g m alpha).1
      ∧ (searchLoop F beta l g n alpha).2.1 =
        (searchLoop F beta l g m alpha).2.1 := by
  intro l
  induction l with
  | nil => intro g n m alpha; exact ⟨rfl, rfl⟩
  | cons c rest ih =>
    intro g n m alpha
    have hF := HF (g.push c) n m alpha
    rcases hFn : F (g.push c) n alpha with ⟨rn, gn, nn1⟩
    rcases hFm : F (g.push c) m alpha with ⟨rm, gm, mm1⟩
    rw [hFn, hFm] at hF
    simp only at hF
    rcases hF with ⟨hr, hg⟩
    subst hr
    subst hg
    cases rn with
    | error e => rw [searchLoop, hFn, searchLoop, hFm]; exact ⟨rfl, rfl⟩
    | ok s =>
      rw [searchLoop, hFn, searchLoop, hFm]
      by_cases hb : beta ≤ max alpha (-s)
      · simp [hb]
      · simp only [hb, if_false]
        exact ih _ _ _ _

/-- With the flag never set, the key pass's keys and final game do not
depend on the starting value of the load counter. -/
theorem sortScores_shift
    (F : ChessGame → Nat → Except Unit Int × ChessGame × Nat)
    (HF : ∀ gp nn mm, (F gp nn).1 = (F gp mm).1 ∧
      (F gp nn).2.1 = (F gp mm).2.1) :
    ∀ (l : List (Move × GameTree)) (g : ChessGame) (n m : Nat),
      (sortScores F l g n).1 = (sortScores F l g m).1
      ∧ (sortScores F l g n).2.1 = (sortScores F l g m).2.1 := by
  intro l
  induction l with
  | nil => intro g n m; exact ⟨rfl, rfl⟩
  | cons c rest ih =>
    intro g n m
    have hF := HF (g.push c) n m
    rcases hF with ⟨hr, hg⟩
    simp only [sortScores, hr, hg]
    rcases ih ((F (g.push c) m).2.1.pop c.1) (F (g.push c) n).2.2
        (F (g.push c) m).2.2 with ⟨hk, hg2⟩
    simp [hk, hg2]

/-- With the flag never set, the search's outcome and final game do not
depend on the starting value of the load counter. -/
theorem score_cfalse_shift :
    ∀ (fuel : Nat) (g : ChessGame) (depth : Nat) (alpha beta : Int)
      (n m : Nat),
      (get_best_move_score (fun _ => false) fuel g n depth alpha beta).1 =
        (get_best_move_score (fun _ => false) fuel g m depth alpha beta).1
      ∧ (get_best_move_score (fun _ => false) fuel g n depth alpha
          beta).2.1 =
        (get_best_move_score (fun _ => false) fuel g m depth alpha
          beta).2.1 := by
  intro fuel
  induction fuel with
  | zero => intro g depth alpha beta n m; exact ⟨rfl, rfl⟩
  | succ fuel ih =>
    intro g depth alpha beta n m
    have hsn : (fun _ => false) n = false := rfl
    have hsm : (fun _ => false) m = false := rfl
    by_cases h2 : depth = 2
    · rw [h2, (score_succ_shallow _ fuel g n alpha beta hsn).1,
        (score_succ_shallow _ fuel g m alpha beta hsm).1]
      exact ⟨rfl, rfl⟩
    · by_cases h1 : depth = 1
      · rw [h1, (score_succ_shallow _ fuel g n alpha beta hsn).2.1,
          (score_succ_shallow _ fuel g m alpha beta hsm).2.1]
        exact ⟨rfl, rfl⟩
      · by_cases h0 : depth = 0
        · rw [h0, (score_succ_shallow _ fuel g n alpha beta hsn).2.2,
            (score_succ_shallow _ fuel g m alpha beta hsm).2.2]
          exact ⟨rfl, rfl⟩
        · have hd : 3 ≤ depth := by omega
          rcases hms : g.get_moves true with _ | ⟨c1, _ | ⟨c2, rest⟩⟩
          · rw [score_succ_empty _ fuel g n depth alpha beta hsn hd hms,
              score_succ_empty _ fuel g m depth alpha beta hsm hd hms]
            exact ⟨rfl, rfl⟩
          · have hsh := ih (g.push c1) depth (-beta) (-alpha) (n + 1) (m + 1)
            rcases hidn : get_best_move_score (fun _ => false) fuel
                (g.push c1) (n + 1) depth (-beta) (-alpha) with ⟨rn, gn, n1⟩
            rcases hidm : get_best_move_score (fun _ => false) fuel
                (g.push c1) (m + 1) depth (-beta) (-alpha) with ⟨rm, gm, m1⟩
            rw [hidn, hidm] at hsh
            simp only at hsh
            rcases hsh with ⟨hr, hg⟩
            subst hr
            subst hg
            cases rn with
            | error e =>
              cases e
              rw [score_succ_single_err _ fuel g gn n n1 depth alpha beta c1
                hsn hd hms hidn,
                score_succ_single_err _ fuel g gn m m1 depth alpha beta c1
                hsm hd hms hidm]
              exact ⟨rfl, rfl⟩
            | ok s =>
              rw [score_succ_single_ok _ fuel g gn n n1 depth alpha beta s c1
                hsn hd hms hidn,
                score_succ_single_ok _ fuel g gn m m1 depth alpha beta s c1
                hsm hd hms hidm]
              exact ⟨rfl, rfl⟩
          · have HF1 : ∀ gp nn mm a,
                ((get_best_move_score (fun _ => false) fuel gp nn (depth - 1)
                  (-beta) (-a)).1 =
                 (get_best_move_score (fun _ => false) fuel gp mm (depth - 1)
                  (-beta) (-a)).1)
                ∧ ((get_best_move_score (fun _ => false) fuel gp nn
                  (depth - 1) (-beta) (-a)).2.1 =
                 (get_best_move_score (fun _ => false) fuel gp mm (depth - 1)
                  (-beta) (-a)).2.1) :=
              fun gp nn mm a => ih gp (depth - 1) (-beta) (-a) nn mm
            by_cases h5 : 5 ≤ depth
            · rw [score_succ_cached _ fuel g n depth alpha beta c1 c2 rest
                hsn h5 hms,
                score_succ_cached _ fuel g m depth alpha beta c1 c2 rest
                hsm h5 hms]
              have HF5 : ∀ gp nn mm,
                  ((get_best_move_score (fun _ => false) fuel gp nn
                    (depth - 5) (-beta) (-alpha)).1 =
                   (get_best_move_score (fun _ => false) fuel gp mm
                    (depth - 5) (-beta) (-alpha)).1)
                  ∧ ((get_best_move_score (fun _ => false) fuel gp nn
                    (depth - 5) (-beta) (-alpha)).2.1 =
                   (get_best_move_score (fun _ => false) fuel gp mm
                    (depth - 5) (-beta) (-alpha)).2.1) :=
                fun gp nn mm => ih gp (depth - 5) (-beta) (-alpha) nn mm
              rcases sortScores_shift _ HF5 (c1 :: c2 :: rest) g (n + 1)
                (m + 1) with ⟨hk, hg⟩
              rw [hk, hg]
              exact searchLoop_shift _ beta HF1 _ _ _ _ _
            · have h5' : depth < 5 := by omega
              rw [score_succ_simple _ fuel g n depth alpha beta c1 c2 rest
                hsn hd h5' hms,
                score_succ_simple _ fuel g m depth alpha beta c1 c2 rest
                hsm hd h5' hms]
              exact searchLoop_shift _ beta HF1 _ _ _ _ _

/-- When every key call computes a counter-independent key and restores
the game it was handed, the key pass pairs each move with its key and
returns the game unchanged. -/
theorem sortScores_keys
    (F : ChessGame → Nat → Except Unit Int × ChessGame × Nat)
    (K : ChessGame → Except Unit Int)
    (HK : ∀ gp nn, (F gp nn).1 = K gp)
    (HR : ∀ gp nn, (F gp nn).2.1 = gp) :
    ∀ (l : List (Move × GameTree)) (g : ChessGame) (n : Nat),
      (sortScores F l g n).1 = l.map (fun c => (c, K (g.push c)))
      ∧ (sortScores F l g n).2.1 = g := by
  intro l
  induction l with
  | nil => intro g n; exact ⟨rfl, rfl⟩
  | cons c rest ih =>
    intro g n
    have hpop : (F (g.push c) n).2.1.pop c.1 = g := by
      rw [HR (g.push c) n]; exact ChessGame.pop_push g c c.1
    rcases ih g (F (g.push c) n).2.2 with ⟨hk, hg⟩
    simp only [sortScores, hpop, List.map]
    constructor
    · rw [HK (g.push c) n, hk]
    · exact hg

/-! ## C6: expensive ordering at depth ≥ 5 -/

/-- C6.  At depth ≥ 5 with at least two legal moves and the flag never
set, `get_best_move_score` runs its full-depth loop on a list obtained
from the legal moves by tentatively pushing each move, scoring it with
the search at `depth - 5` (with the window `(-beta, -alpha)`), popping
it, and stably sorting by those keys in ascending order — the matched
`searchLoop` starts from the untouched game, the list is a permutation
of the legal moves, consecutive entries have nondecreasing reduced-depth
keys (smallest child score, i.e. best for the mover, first), and every
key is an `Ok` score. -/
theorem high_depth_orders_by_reduced_scores
    (fuel n depth : Nat) (g : ChessGame) (alpha beta : Int)
    (c1 c2 : Move × GameTree) (rest : List (Move × GameTree))
    (h5 : 5 ≤ depth) (hms : g.get_moves true = c1 :: c2 :: rest) :
    ∃ sorted n2,
      get_best_move_score (fun _ => false) (fuel + 1) g n depth alpha
        beta =
        searchLoop
          (fun gp nn a => get_best_move_score (fun _ => false) fuel gp nn
            (depth - 1) (-beta) (-a)) beta sorted g n2 alpha
      ∧ sorted.Perm (g.get_moves true)
      ∧ sorted.Pairwise (fun x y =>
          resultLE
            (get_best_move_score (fun _ => false) fuel (g.push x) 0
              (depth - 5) (-beta) (-alpha)).1
            (get_best_move_score (fun _ => false) fuel (g.push y) 0
              (depth - 5) (-beta) (-alpha)).1 = true)
      ∧ (∀ c ∈ g.get_moves true, ∃ s,
          (get_best_move_score (fun _ => false) fuel (g.push c) 0
            (depth - 5) (-beta) (-alpha)).1 = .ok s) := by
  have HK : ∀ gp nn,
      ((fun gp nn => get_best_move_score (fun _ => false) fuel gp nn
        (depth - 5) (-beta) (-alpha)) gp nn).1 =
      (get_best_move_score (fun _ => false) fuel gp 0 (depth - 5) (-beta)
        (-alpha)).1 :=
    fun gp nn =>
      (score_cfalse_shift fuel gp (depth - 5) (-beta) (-alpha) nn 0).1
  have HR : ∀ gp nn,
      ((fun gp nn => get_best_move_score (fun _ => false) fuel gp nn
        (depth - 5) (-beta) (-alpha)) gp nn).2.1 = gp := by
    intro gp nn
    rcases score_cfalse_ok fuel gp nn (depth - 5) (-beta) (-alpha)
      with ⟨s, hok⟩
    exact (score_restore_leak _ monoSched_cfalse fuel gp nn (depth - 5)
      (-beta) (-alpha)).1 s hok
  have hkeys := sortScores_keys _
    (fun gp => (get_best_move_score (fun _ => false) fuel gp 0 (depth - 5)
      (-beta) (-alpha)).1)
    HK HR (c1 :: c2 :: rest) g (n + 1)
  have htot : IsTotal ((Move × GameTree) × Except Unit Int)
      (fun a b => resultLE a.2 b.2 = true) := by
    constructor
    intro a b
    cases ha : a.2 <;> cases hb : b.2 <;> simp [resultLE, ha, hb]
    omega
  have htr : IsTrans ((Move × GameTree) × Except Unit Int)
      (fun a b => resultLE a.2 b.2 = true) := by
    constructor
    intro a b c hab hbc
    cases ha : a.2 <;> cases hb : b.2 <;> cases hc : c.2 <;>
      simp_all [resultLE]
    omega
  refine ⟨(sortByKeys ((c1 :: c2 :: rest).map (fun c => (c,
      (get_best_move_score (fun _ => false) fuel (g.push c) 0 (depth - 5)
        (-beta) (-alpha)).1)))).map (fun x => x.1),
    (sortScores (fun gp nn => get_best_move_score (fun _ => false) fuel gp
      nn (depth - 5) (-beta) (-alpha)) (c1 :: c2 :: rest) g (n + 1)).2.2,
    ?_, ?_, ?_, ?_⟩
  · rw [score_succ_cached _ fuel g n depth alpha beta c1 c2 rest rfl h5 hms]
    rw [hkeys.1, hkeys.2]
  · rw [hms]
    have hperm := (List.perm_insertionSort
      (fun a b : (Move × GameTree) × Except Unit Int =>
        resultLE a.2 b.2 = true)
      ((c1 :: c2 :: rest).map (fun c => (c,
        (get_best_move_score (fun _ => false) fuel (g.push c) 0 (depth - 5)
          (-beta) (-alpha)).1)))).map (fun x => x.1)
    rw [sortByKeys]
    refine hperm.trans ?_
    have hmapid : ∀ l : List (Move × GameTree),
        (l.map (fun c => (c,
          (get_best_move_score (fun _ => false) fuel (g.push c) 0
            (depth - 5) (-beta) (-alpha)).1))).map (fun x => x.1) = l := by
      intro l
      induction l with
      | nil => rfl
      | cons a t iht => simp only [List.map, iht]
    rw [hmapid]
  · have hp : List.Pairwise
        (fun a b : (Move × GameTree) × Except Unit Int =>
          resultLE a.2 b.2 = true)
        (sortByKeys ((c1 :: c2 :: rest).map (fun c => (c,
          (get_best_move_score (fun _ => false) fuel (g.push c) 0
            (depth - 5) (-beta) (-alpha)).1)))) := by
      rw [sortByKeys]
      exact List.sorted_insertionSort _ _
    rw [List.pairwise_map]
    refine List.Pairwise.imp_of_mem ?_ hp
    intro a b ha hb hab
    have ha2 : a ∈ (c1 :: c2 :: rest).map (fun c => (c,
        (get_best_move_score (fun _ => false) fuel (g.push c) 0 (depth - 5)
          (-beta) (-alpha)).1)) := by
      rw [sortByKeys] at ha
      exact (List.mem_insertionSort _).1 ha
    have hb2 : b ∈ (c1 :: c2 :: rest).map (fun c => (c,
        (get_best_move_score (fun _ => false) fuel (g.push c) 0 (depth - 5)
          (-beta) (-alpha)).1)) := by
      rw [sortByKeys] at hb
      exact (List.mem_insertionSort _).1 hb
    rcases List.mem_map.1 ha2 with ⟨ca, _, hca⟩
    rcases List.mem_map.1 hb2 with ⟨cb, _, hcb⟩
    rw [← hca, ← hcb]
    rw [← hca, ← hcb] at hab
    exact hab
  · intro c _
    exact score_cfalse_ok fuel (g.push c) 0 (depth - 5) (-beta) (-alpha)

/-- Witness for C6 at a concrete two-move, depth-5 position. -/
theorem high_depth_orders_by_reduced_scores_witness :
    ∃ sorted n2,
      get_best_move_score (fun _ => false) 6 gTwo 0 5 (-100) 100 =
        searchLoop
          (fun gp nn a => get_best_move_score (fun _ => false) 5 gp nn 4
            (-100) (-a)) 100 sorted gTwo n2 (-100)
      ∧ sorted.Perm (gTwo.get_moves true)
      ∧ sorted.Pairwise (fun x y =>
          resultLE
            (get_best_move_score (fun _ => false) 5 (gTwo.push x) 0 0
              (-100) 100).1
            (get_best_move_score (fun _ => false) 5 (gTwo.push y) 0 0
              (-100) 100).1 = true)
      ∧ (∀ c ∈ gTwo.get_moves true, ∃ s,
          (get_best_move_score (fun _ => false) 5 (gTwo.push c) 0 0
            (-100) 100).1 = .ok s) :=
  high_depth_orders_by_reduced_scores 5 0 5 gTwo (-100) 100 (mv1, tLeaf)
    (mv2, .node (-2) false []) [] (by omega) rfl
